import Mathlib

/-!
# Verification of the CO2MPAS dispatcher specification

The repository's core component is the dispatcher (`compas.dispatcher` and
`compas.utils.dsp`).  Its implementation modules are not among the provided
source files: only its test suite (`src/tests/dispatcher/utils/test_dsp.py`)
and its callers (the physical models and the `co2mpas` utilities) are.
The definitions below are therefore modelled from the natural-language
specification (spec.md §3, §4.2, §4.3, §4.5), except where the repository's
own test suite pins down an observable behaviour that differs from the
spec's words; each such place is flagged in the corresponding doc comment.

The only dispatcher-adjacent function whose body *is* in the sources,
`calculate_engine_powers_out` (src/compas/functions/physical/engine/
`__init__.py`), is embedded directly from that source.
-/

namespace CoDsp

/-- First-match lookup in an association list keyed by strings, the model of
a Python `dict` access `d[k]` that returns `None` when the key is absent. -/
def alookup {β : Type} : List (String × β) → String → Option β
  | [], _ => none
  | (a, b) :: t, k => if a = k then some b else alookup t k

/-- Modelled from the spec (§3): a function node holds an ordered sequence of
input data-node ids, an ordered sequence of output data-node ids, a numeric
weight (default 0, lower preferred) and an optional domain predicate gating
whether the node may fire.  The wrapped callable is total here (spec §4.2
invocation failures are out of scope for the claims under check); it returns
one value per declared output. -/
structure FunctionNode (α : Type) where
  fid : String
  func : List α → List α
  inputs : List String
  outputs : List String
  weight : Nat
  domain : List α → Bool

/-- Modelled from the spec (§4.1): the graph store, holding the registered
function nodes in declaration order together with the data-node defaults. -/
structure Dispatcher (α : Type) where
  functions : List (FunctionNode α)
  defaults : List (String × α)

/-- The empty graph store. -/
def Dispatcher.empty {α : Type} : Dispatcher α := ⟨[], []⟩

/-- The ids of the registered function nodes, in declaration order. -/
def Dispatcher.fids {α : Type} (d : Dispatcher α) : List String :=
  d.functions.map FunctionNode.fid

/-- Candidate renamed id of shape `base<k>`, scanning for one not in `used`.
Modelled from the test suite: `test_dsp.py` registers the id
`dispatch_list` twice and then observes both nodes fire, so a colliding
explicit id is renamed with a counter suffix rather than rejected (the
spec's §4.1 words "raises a naming-collision error" disagree with the
repository's own test). -/
def freshSuffix (used : List String) (base : String) : Nat → Nat → String
  | 0, k => base ++ "<" ++ Nat.repr k ++ ">"
  | fuel + 1, k =>
    if (base ++ "<" ++ Nat.repr k ++ ">") ∈ used then
      freshSuffix used base fuel (k + 1)
    else
      base ++ "<" ++ Nat.repr k ++ ">"

/-- Return `base` itself when unused, otherwise a suffixed variant. -/
def uniquify (used : List String) (base : String) : String :=
  if base ∈ used then freshSuffix used base (used.length + 1) 0 else base

/-- Modelled from the spec (§4.1) and the test suite: `add_function`
registers a function node at the end of the declaration list.  When no id is
given one is derived automatically; when the given id collides with an
existing node the id is uniquified (see `freshSuffix`) and the node is
registered anyway. -/
def Dispatcher.add_function {α : Type} (d : Dispatcher α) (fid : Option String)
    (f : List α → List α) (ins outs : List String) (w : Nat)
    (dom : List α → Bool) : Dispatcher α :=
  let base := match fid with
    | some i => i
    | none => "unknown"
  let i := uniquify d.fids base
  { d with functions := d.functions ++ [⟨i, f, ins, outs, w, dom⟩] }

/-- Modelled from the spec (§4.1): `add_data` registers or updates a data
node's default value; re-adding the same id overwrites the default. -/
def Dispatcher.add_data {α : Type} (d : Dispatcher α) (did : String) (v : α) :
    Dispatcher α :=
  { d with defaults := (d.defaults.filter (fun p => p.1 ≠ did)) ++ [(did, v)] }

/-!
## The resolver

Modelled from the spec (§4.2).  The spec describes a priority-frontier
search at data-node granularity; the model below is the equivalent
round-based formulation: at every step the cheapest not-yet-fired function
node all of whose inputs are resolved and whose domain predicate holds is
fired, ties broken by declaration order ("first-declared function wins",
spec §4.2 step 3).  A fired node records each of its outputs unless that
output is already resolved (first-resolution-wins).  The cost of a firing is
the maximum cost of its inputs plus the node's weight; costs are held as
naturals scaled by 2 so that the "small epsilon" cost of a default value
(spec §4.2 step 1) can sit strictly between cost 0 of a supplied input and
the smallest positive weight contribution.

Wildcard handling (spec §4.2 step 5, used by `SubDispatchFunction`): the
ids listed in `seeds` carry an input value that functions may consume, but
the value is not recorded as a result, so a requested output equal to an
input must be recomputed by some producer (this is what makes
`fun(3, -1)` in `test_sub_dispatch_function` fail rather than echo `3`).
-/

/-- A resolution state: the resolved data nodes (value and cost, in
resolution order, never overwritten) and the indices of the fired function
nodes (in firing order). -/
structure DState (α : Type) where
  resolved : List (String × α × Nat)
  fired : List Nat

/-- Resolved value of a data node, forgetting its cost. -/
def DState.val {α : Type} (st : DState α) (k : String) : Option α :=
  (alookup st.resolved k).map Prod.fst

/-- Gather the values and costs of a list of input ids: a wildcard seed is
consumed at cost 0 in preference to a resolved value; `none` when some input
is neither seeded nor resolved. -/
def argvals {α : Type} (seeds : List (String × α))
    (resolved : List (String × α × Nat)) : List String → Option (List (α × Nat))
  | [] => some []
  | i :: is =>
    match alookup seeds i with
    | some v => (argvals seeds resolved is).map (fun t => (v, 0) :: t)
    | none =>
      match alookup resolved i with
      | some vc => (argvals seeds resolved is).map (fun t => vc :: t)
      | none => none

/-- Maximum of a list of naturals (0 for the empty list). -/
def maxCost : List Nat → Nat
  | [] => 0
  | c :: t => max c (maxCost t)

/-- The cost at which a candidate function node would fire: accumulated
maximum cost of its inputs plus its (scaled) weight. -/
def candCost {α : Type} (f : FunctionNode α) (avs : List (α × Nat)) : Nat :=
  maxCost (avs.map Prod.snd) + 2 * f.weight

/-- The candidate function nodes among `fns`, numbering declarations from
`i0`: not yet fired, all inputs available, domain predicate true on the
input values.  Listed in declaration order, paired with their declaration
index and argument list. -/
def candidatesFrom {α : Type} (seeds : List (String × α)) (st : DState α) :
    Nat → List (FunctionNode α) → List (Nat × FunctionNode α × List (α × Nat))
  | _, [] => []
  | i, f :: rest =>
    let tail := candidatesFrom seeds st (i + 1) rest
    if i ∈ st.fired then tail
    else
      match argvals seeds st.resolved f.inputs with
      | none => tail
      | some avs =>
        if f.domain (avs.map Prod.fst) then (i, f, avs) :: tail else tail

/-- The candidate function nodes of a state, in declaration order. -/
def candidatesOf {α : Type} (d : Dispatcher α) (seeds : List (String × α))
    (st : DState α) : List (Nat × FunctionNode α × List (α × Nat)) :=
  candidatesFrom seeds st 0 d.functions

/-- Keep the cheaper of the accumulator and the next candidate, the
accumulator (i.e. the earlier-declared one) on cost ties. -/
def pickStep {α : Type} (acc : Option (Nat × FunctionNode α × List (α × Nat)))
    (c : Nat × FunctionNode α × List (α × Nat)) :
    Option (Nat × FunctionNode α × List (α × Nat)) :=
  match acc with
  | none => some c
  | some b => if candCost c.2.1 c.2.2 < candCost b.2.1 b.2.2 then some c else some b

/-- Pick the cheapest candidate, keeping the earliest-declared one on cost
ties. -/
def pickMin {α : Type} (l : List (Nat × FunctionNode α × List (α × Nat))) :
    Option (Nat × FunctionNode α × List (α × Nat)) :=
  l.foldl pickStep none

/-- Record the outputs of a firing at the given cost; an output already
resolved is left untouched (first-resolution-wins). -/
def recordOuts {α : Type} (cost : Nat) :
    List (String × α × Nat) → List (String × α) → List (String × α × Nat)
  | r, [] => r
  | r, (o, v) :: rest =>
    if (alookup r o).isSome then recordOuts cost r rest
    else recordOuts cost (r ++ [(o, v, cost)]) rest

/-- Fire one candidate: mark it fired and record its outputs. -/
def fireCand {α : Type} (st : DState α) (i : Nat) (f : FunctionNode α)
    (avs : List (α × Nat)) : DState α :=
  let c := candCost f avs
  ⟨recordOuts c st.resolved (f.outputs.zip (f.func (avs.map Prod.fst))),
   st.fired ++ [i]⟩

/-- Early-termination test (spec §4.2 step 4): with an output restriction,
stop once every requested output is resolved. -/
def stopNow {α : Type} : Option (List String) → DState α → Bool
  | none, _ => false
  | some outs, st => outs.all (fun o => (alookup st.resolved o).isSome)

/-- The resolver loop: repeatedly fire the cheapest candidate until none is
left, the requested outputs are all resolved, or the fuel runs out. -/
def dispatchLoop {α : Type} (d : Dispatcher α) (seeds : List (String × α))
    (outR : Option (List String)) : Nat → DState α → DState α
  | 0, st => st
  | fuel + 1, st =>
    if stopNow outR st then st
    else
      match pickMin (candidatesOf d seeds st) with
      | none => st
      | some (i, f, avs) => dispatchLoop d seeds outR fuel (fireCand st i f avs)

/-- Seed the default values (spec §4.2 step 1): a default is resolved at
the epsilon cost 1 unless its data node is already resolved or was supplied
as an input. -/
def seedDefaults {α : Type} (inputs : List (String × α))
    (r : List (String × α × Nat)) (ds : List (String × α)) :
    List (String × α × Nat) :=
  ds.foldl (fun r p =>
    if (alookup r p.1).isSome ∨ (alookup inputs p.1).isSome then r
    else r ++ [(p.1, p.2, 1)]) r

/-- Initial state of a run: the non-wildcard inputs resolved at cost 0, the
defaults of data nodes not supplied resolved at the epsilon cost 1; the
wildcard inputs become consumable seeds. -/
def initState {α : Type} (d : Dispatcher α) (inputs : List (String × α))
    (wildcards : List String) : List (String × α) × DState α :=
  let seeds := inputs.filter (fun p => p.1 ∈ wildcards)
  let direct := inputs.filter (fun p => p.1 ∉ wildcards)
  let res0 := direct.map (fun p => (p.1, p.2, 0))
  (seeds, ⟨seedDefaults inputs res0 d.defaults, []⟩)

/-- One full resolution run with wildcard ids and an optional output
restriction. -/
def dispatchW {α : Type} (d : Dispatcher α) (inputs : List (String × α))
    (wildcards : List String) (outR : Option (List String)) : DState α :=
  let p := initState d inputs wildcards
  dispatchLoop d p.1 outR (d.functions.length + 1) p.2

/-- Modelled from the spec (§4.2): `dispatch(inputs, outputs)`.  The result
mapping is the final resolved set; `outR = none` is a call with no output
restriction. -/
def Dispatcher.dispatch {α : Type} (d : Dispatcher α)
    (inputs : List (String × α)) (outR : Option (List String)) : DState α :=
  dispatchW d inputs [] outR

/-!
## Static reachability

Modelled from the spec (§4.3): `SubDispatchFunction` performs "a static
reachability check, not a runtime one" at construction time, so the check
ignores domain predicates and values: a data node is reachable when it is a
declared input or an output of a function node all of whose inputs are
reachable.  `reachClosure` computes the closure; `Reachable` is the
declarative counterpart proved equivalent further below.
-/

/-- Add an id to a set-like list unless already present. -/
def addId (r : List String) (o : String) : List String :=
  if o ∈ r then r else r ++ [o]

/-- Extend the reachable set by one function node: when all its inputs are
reachable, its outputs become reachable. -/
def stepFn {α : Type} (acc : List String) (f : FunctionNode α) : List String :=
  if f.inputs.all (fun i => i ∈ acc) then f.outputs.foldl addId acc else acc

/-- One saturation round: every function node whose inputs are all in `r`
contributes its outputs. -/
def reachStep {α : Type} (fns : List (FunctionNode α)) (r : List String) :
    List String :=
  fns.foldl stepFn r

/-- Iterate the saturation round `n` times from the declared inputs. -/
def reachIter {α : Type} (fns : List (FunctionNode α)) (ins : List String) :
    Nat → List String
  | 0 => ins.dedup
  | n + 1 => reachStep fns (reachIter fns ins n)

/-- All candidate data-node ids: the declared inputs and every declared
output. -/
def idUniverse {α : Type} (fns : List (FunctionNode α)) (ins : List String) :
    List String :=
  (ins ++ fns.flatMap FunctionNode.outputs).dedup

/-- The data nodes structurally reachable from the declared inputs: the
iteration is run long enough to be saturated. -/
def reachClosure {α : Type} (fns : List (FunctionNode α)) (ins : List String) :
    List String :=
  reachIter fns ins ((idUniverse fns ins).length + 1)

/-- Declarative structural reachability from the declared inputs. -/
inductive Reachable {α : Type} (fns : List (FunctionNode α)) (ins : List String) :
    String → Prop
  | input {o : String} : o ∈ ins → Reachable fns ins o
  | output {f : FunctionNode α} {o : String} : f ∈ fns →
      (∀ i ∈ f.inputs, Reachable fns ins i) → o ∈ f.outputs →
      Reachable fns ins o

/-!
## Sub-dispatch adapters (spec §4.3)
-/

/-- The shapes a `SubDispatch` adapter can return: a result mapping, an
ordered list, or a bare value. -/
inductive SDResult (α : Type) where
  | dict : List (String × α) → SDResult α
  | list : List α → SDResult α
  | value : α → SDResult α
deriving DecidableEq

/-- The `type_return` configuration option of `SubDispatch`. -/
inductive TypeReturn where
  | dict
  | list
  | value
deriving DecidableEq

/-- Modelled from the spec (§4.3) and the test suite: the `SubDispatch`
adapter runs `dispatch` on the embedded graph restricted to the requested
outputs and reshapes the result mapping.  `dict` projects the requested keys
that were resolved.  The test suite pins `list` down: with the two requested
outputs `a, c` it returns the list `[3, 2]`, but with the single requested
output `c` it returns the bare value `2` (`o['h'] == 2` in `test_sub_dsp`),
so a single requested output yields a bare value even under `list` (the
spec's §4.3 words reserve the bare value for `type_return='value'`, which
disagrees with the test).  `value` unwraps a single resolved output. -/
def SubDispatch {α : Type} (sub : Dispatcher α) (outputs : List String)
    (tr : TypeReturn) (inputs : List (String × α)) : SDResult α :=
  let st := sub.dispatch inputs (some outputs)
  let present := outputs.filterMap (fun o => (st.val o).map (fun v => (o, v)))
  match tr with
  | .dict => .dict present
  | .list =>
    match outputs, present.map Prod.snd with
    | [_], [v] => .value v
    | _, vs => .list vs
  | .value =>
    match present.map Prod.snd with
    | [v] => .value v
    | vs => .list vs

/-- A successfully constructed fixed-signature pure-function adapter. -/
structure SDF (α : Type) where
  sub : Dispatcher α
  name : String
  ins : List String
  outs : List String

/-- The value(s) a `SubDispatchFunction` call returns: a bare value when a
single output was requested, an ordered list otherwise. -/
inductive CallResult (α : Type) where
  | one : α → CallResult α
  | many : List α → CallResult α
deriving DecidableEq

/-- A single resolved value is returned bare, several as an ordered list. -/
def asCallResult {α : Type} : List α → CallResult α
  | [v] => .one v
  | vs => .many vs

/-- Look every name up, `none` as soon as one of them is unresolved. -/
def lookupAll {α : Type} : List String → (String → Option α) → Option (List α)
  | [], _ => some []
  | o :: t, f =>
    match f o with
    | none => none
    | some v => (lookupAll t f).map (fun vs => v :: vs)

/-- Modelled from the spec (§4.3, §6): `SubDispatchFunction` construction
validates at graph-build time, before any call, that every requested output
is structurally reachable from the declared inputs in the embedded graph,
and raises a `ValueError` otherwise. -/
def SubDispatchFunction {α : Type} (sub : Dispatcher α) (name : String)
    (ins outs : List String) : Except String (SDF α) :=
  if outs.all (fun o => o ∈ reachClosure sub.functions ins) then
    .ok ⟨sub, name, ins, outs⟩
  else
    .error "ValueError: unreachable output"

/-- Modelled from the spec (§4.3) and the test suite: a call binds the
positional values to the declared input names and dispatches the embedded
graph for the requested outputs.  Inputs that are also requested outputs are
passed as wildcards, so they must be recomputed rather than echoed (this is
what makes `fun(3, -1)` raise in `test_sub_dispatch_function`).  If some
requested output is not resolved the call raises a `ValueError`; otherwise
the resolved values are returned in requested order, a single output as a
bare value. -/
def SDF.call {α : Type} (s : SDF α) (vals : List α) :
    Except String (CallResult α) :=
  let inputs := s.ins.zip vals
  let wild := s.ins.filter (fun i => i ∈ s.outs)
  let st := dispatchW s.sub inputs wild (some s.outs)
  match lookupAll s.outs st.val with
  | none => .error "ValueError: unresolved outputs"
  | some vs => .ok (asCallResult vs)

/-- Modelled from the test suite (`test_replicate_function`): the
`ReplicateFunction` adapter applies the wrapped single-valued function to
each input argument separately, producing one result per declared output
slot (with inputs `a = 3, b = 4` and `fun a: (a+1, a-1)` the test expects
`c = (4, 2)` and `d = (5, 3)`, i.e. per-argument application; the spec's
§4.3 words "the same return value replicated" disagree with the test). -/
def ReplicateFunction {α β : Type} (f : α → β) (args : List α) : List β :=
  args.map f

/-!
## Utility combinators (spec §4.5)

`selector` and `combine_dicts` are defined in the dispatcher utility module,
which is absent from the sources; they are modelled from the spec (§4.5) and
from their uses in `src/co2mpas/functions/report.py`,
`src/co2mpas/datasync.py` and the test suite.
-/

/-- Output shape of `selector`. -/
inductive SelOut (α : Type) where
  | dict : List (String × α) → SelOut α
  | list : List α → SelOut α
deriving DecidableEq

/-- Modelled from the spec (§4.5): `selector(keys, mapping, allow_miss,
output_type)` projects the listed keys out of the mapping; a listed key that
is absent raises a `KeyError` unless `allow_miss` is set, in which case the
key is silently omitted. -/
def selector {α : Type} (keys : List (String)) (d : List (String × α))
    (allow_miss : Bool) (output_type : TypeReturn) :
    Except String (SelOut α) :=
  if ¬ allow_miss ∧ keys.any (fun k => (alookup d k).isNone) then
    .error "KeyError"
  else
    let present := keys.filterMap (fun k => (alookup d k).map (fun v => (k, v)))
    match output_type with
    | .list => .ok (.list (present.map Prod.snd))
    | _ => .ok (.dict present)

/-- Modelled from the spec (§4.5) and `test_combine_dicts`: merge a sequence
of mappings, a later mapping's value overriding an earlier one on key
conflicts.  The model is pure, so no argument is mutated. -/
def combine_dicts {α : Type} (ds : List (List (String × α))) :
    List (String × α) :=
  ds.foldl (fun acc d =>
    (acc.filter (fun p => (alookup d p.1).isNone)) ++ d) []

/-- The value a key receives from a sequence of mappings when the last
mapping containing the key wins: the declarative reading of the spec's
"later dict's keys override earlier ones". -/
def lastWins {α : Type} (ds : List (List (String × α))) (k : String) :
    Option α :=
  ds.foldl (fun acc d =>
    match alookup d k with
    | some v => some v
    | none => acc) none

/-- Modelled from the spec (§4.5): `bypass` returns its arguments unchanged,
a single argument unwrapped. -/
def bypass {α : Type} (args : List α) : CallResult α :=
  match args with
  | [v] => .one v
  | _ => .many args

/-!
## `calculate_engine_powers_out`

Embedded from `src/compas/functions/physical/engine/__init__.py`
(lines 610-640).  numpy arrays are modelled as integer lists (the claim
under check concerns the unconditional dereference of the optional
argument, which is independent of the numeric type).  The evaluation order
of the Python body is kept: `p[on_engine] = gear_box_powers_in[on_engine]`
is evaluated first, so a boolean-mask shape mismatch surfaces before the
dereference of `alternator_powers_demand` on the following line, and that
dereference (`alternator_powers_demand[on_engine]`) raises when the
argument was left at its default `None`. -/
def engine_powers_body (gear_box_powers_in : List Int)
    (on_engine : List Bool) (apd : List Int) (P0 : Option Int) :
    Except String (List Int) :=
  if apd.length ≠ on_engine.length then
    .error "IndexError: boolean index shape mismatch"
  else
    let p := (gear_box_powers_in.zip (on_engine.zip apd)).map
      (fun t => if t.2.1 then t.1 + |t.2.2| else 0)
    match P0 with
    | none => .ok p
    | some q => .ok (p.map (fun x => if x < q then q else x))

def calculate_engine_powers_out (gear_box_powers_in : List Int)
    (on_engine : List Bool) (alternator_powers_demand : Option (List Int))
    (P0 : Option Int) : Except String (List Int) :=
  if on_engine.length ≠ gear_box_powers_in.length then
    .error "IndexError: boolean index shape mismatch"
  else
    match alternator_powers_demand with
    | none => .error "TypeError: NoneType object is not subscriptable"
    | some apd => engine_powers_body gear_box_powers_in on_engine apd P0

/-!
## Concrete scenarios from the repository's test suite

A small value universe (integers and Python-tuple pairs) large enough for
the scenarios of `src/tests/dispatcher/utils/test_dsp.py`.
-/

/-- Values occurring in the test scenarios: integers and tuples. -/
inductive V where
  | i : Int → V
  | p : V → V → V
deriving DecidableEq, Repr

/-- The sink node id (`compas.dispatcher.constants.SINK`), a data node that
swallows unused outputs. -/
def SINK : String := "sink"

/-- `fun a: return a + 1, a - 1` from `test_replicate_function`, as a
single-valued function producing a tuple. -/
def plusMinus : V → V
  | V.i n => V.p (V.i (n + 1)) (V.i (n - 1))
  | v => v

/-- The graph of `test_replicate_function`: one `ReplicateFunction` node
with inputs `a, b` and outputs `c, d`. -/
def replicateDsp : Dispatcher V :=
  Dispatcher.empty.add_function (some "fun")
    (fun args => ReplicateFunction plusMinus args) ["a", "b"] ["c", "d"]
    0 (fun _ => true)

/-- `max` over a two-element argument list. -/
def max2 : List Int → List Int
  | [a, b] => [max a b]
  | _ => []

/-- `min` over a two-element argument list. -/
def min2 : List Int → List Int
  | [a, b] => [min a b]
  | _ => []

/-- The domain predicate `lambda c, b: c * b > 0` of
`TestSubDispatchFunction.setUp`. -/
def posProd : List Int → Bool
  | [c, b] => decide (c * b > 0)
  | _ => false

/-- `self.dsp_1` of `TestSubDispatchFunction.setUp`: `max(a, b) -> c` and
`min(c, b) -> a` gated by `c * b > 0`. -/
def dsp_1 : Dispatcher Int :=
  (Dispatcher.empty.add_function none max2 ["a", "b"] ["c"] 0
    (fun _ => true)).add_function none min2 ["c", "b"] ["a"] 0 posProd

/-- `f(a, b) = (a + b, a - b)` of `TestSubDispatchFunction.setUp`. -/
def sumDiff : List Int → List Int
  | [a, b] => [a + b, a - b]
  | _ => []

/-- `self.dsp_2` of `TestSubDispatchFunction.setUp`: `f(a, b) -> (c, SINK)`
and `f(c, b) -> (SINK, d)`. -/
def dsp_2 : Dispatcher Int :=
  (Dispatcher.empty.add_function none sumDiff ["a", "b"] ["c", SINK] 0
    (fun _ => true)).add_function none sumDiff ["c", "b"] [SINK, "d"] 0
    (fun _ => true)

/-- `fun a: return a + 1, a - 1` of `TestSubDispatcher.setUp`, two-valued. -/
def succPred : List Int → List Int
  | [a] => [a + 1, a - 1]
  | _ => []

/-- `sub_dsp` of `TestSubDispatcher.setUp`: `fun(a) -> (b, c)`. -/
def sub_dsp : Dispatcher Int :=
  Dispatcher.empty.add_function (some "fun") succPred ["a"] ["b", "c"] 0
    (fun _ => true)

/-- A store registering two nodes under the explicit id `dispatch_list`,
the shape of `TestSubDispatcher.setUp` lines 77-78. -/
def dupIdDsp : Dispatcher Int :=
  (Dispatcher.empty.add_function (some "dispatch_list")
      (fun l => [l.headD 0 + 1]) ["d"] ["g"] 0 (fun _ => true)).add_function
    (some "dispatch_list") (fun l => [l.headD 0 - 1]) ["d"] ["h"] 0
    (fun _ => true)

/-- A store where the producer of `c` with the smaller weight is not the
one whose value ends up in the results, because its input `x` only becomes
available over an expensive chain: `h(s) -> x` at weight 100, `A(x) -> c`
at weight 0, `B(s) -> c` at weight 50. -/
def chainDsp : Dispatcher Int :=
  ((Dispatcher.empty.add_function (some "h") (fun _ => [0]) ["s"] ["x"]
      100 (fun _ => true)).add_function
    (some "A") (fun _ => [2]) ["x"] ["c"] 0 (fun _ => true)).add_function
    (some "B") (fun _ => [1]) ["s"] ["c"] 50 (fun _ => true)

/-!
## Association-list lemmas
-/

theorem alookup_append_of_some {β : Type} {l1 : List (String × β)}
    (l2 : List (String × β)) {k : String} {x : β}
    (h : alookup l1 k = some x) : alookup (l1 ++ l2) k = some x := by
  induction l1 with
  | nil => simp [alookup] at h
  | cons a t ih =>
    by_cases hk : a.1 = k
    · simpa [alookup, hk] using h
    · simp only [alookup, hk, if_false, List.cons_append] at h ⊢
      exact ih h

theorem alookup_append_of_none {β : Type} {l1 : List (String × β)}
    (l2 : List (String × β)) {k : String}
    (h : alookup l1 k = none) : alookup (l1 ++ l2) k = alookup l2 k := by
  induction l1 with
  | nil => simp [alookup]
  | cons a t ih =>
    by_cases hk : a.1 = k
    · simp [alookup, hk] at h
    · simp only [alookup, hk, if_false, List.cons_append] at h ⊢
      exact ih h

theorem alookup_map_cost {α : Type} (l : List (String × α)) (k : String) :
    alookup (l.map (fun p => (p.1, p.2, 0))) k
      = (alookup l k).map (fun v => (v, (0 : Nat))) := by
  induction l with
  | nil => simp [alookup]
  | cons a t ih =>
    by_cases hk : a.1 = k
    · simp [alookup, hk]
    · simp [alookup, hk, ih]

/-!
## Persistence: a resolved data node is never overwritten

These lemmas make the spec's first-resolution-wins rule (§4.2 step 3) and
the immutability invariant (§3) usable: every binding present in the
resolved set survives `recordOuts`, `fireCand`, `seedDefaults` and the
whole `dispatchLoop`, with its value and cost intact.
-/

theorem recordOuts_persist {α : Type} {c : Nat} {k : String} {x : α × Nat} :
    ∀ (outs : List (String × α)) (r : List (String × α × Nat)),
      alookup r k = some x → alookup (recordOuts c r outs) k = some x := by
  intro outs
  induction outs with
  | nil => intro r h; simpa [recordOuts] using h
  | cons a rest ih =>
    intro r h
    simp only [recordOuts]
    by_cases hs : (alookup r a.1).isSome
    · simp only [hs, if_true]
      exact ih r h
    · simp only [hs, if_false]
      exact ih _ (alookup_append_of_some _ h)

theorem fireCand_persist {α : Type} {st : DState α} {i : Nat}
    {f : FunctionNode α} {avs : List (α × Nat)} {k : String} {x : α × Nat}
    (h : alookup st.resolved k = some x) :
    alookup (fireCand st i f avs).resolved k = some x := by
  simpa [fireCand] using recordOuts_persist _ _ h

theorem dispatchLoop_persist {α : Type} (d : Dispatcher α)
    (seeds : List (String × α)) (outR : Option (List String)) {k : String}
    {x : α × Nat} :
    ∀ (fuel : Nat) (st : DState α), alookup st.resolved k = some x →
      alookup (dispatchLoop d seeds outR fuel st).resolved k = some x := by
  intro fuel
  induction fuel with
  | zero => intro st h; simpa [dispatchLoop] using h
  | succ n ih =>
    intro st h
    simp only [dispatchLoop]
    by_cases hstop : stopNow outR st
    · simpa [hstop] using h
    · simp only [hstop, Bool.false_eq_true, if_false]
      cases hp : pickMin (candidatesOf d seeds st) with
      | none => simpa using h
      | some c => exact ih _ (fireCand_persist h)

theorem seedDefaults_persist {α : Type} (inputs : List (String × α))
    {k : String} {x : α × Nat} :
    ∀ (ds : List (String × α)) (r : List (String × α × Nat)),
      alookup r k = some x → alookup (seedDefaults inputs r ds) k = some x := by
  intro ds
  induction ds with
  | nil => intro r h; simpa [seedDefaults] using h
  | cons p rest ih =>
    intro r h
    simp only [seedDefaults, List.foldl_cons]
    by_cases hg : (alookup r p.1).isSome ∨ (alookup inputs p.1).isSome
    · simp only [hg, if_true]
      exact ih r h
    · simp only [hg, if_false]
      exact ih _ (alookup_append_of_some _ h)

theorem seedDefaults_absent {α : Type} (inputs : List (String × α))
    {k : String} :
    ∀ (ds : List (String × α)) (r : List (String × α × Nat)),
      alookup r k = none → (∀ p ∈ ds, p.1 ≠ k) →
      alookup (seedDefaults inputs r ds) k = none := by
  intro ds
  induction ds with
  | nil => intro r h _; simpa [seedDefaults] using h
  | cons p rest ih =>
    intro r h hne
    simp only [seedDefaults, List.foldl_cons]
    by_cases hg : (alookup r p.1).isSome ∨ (alookup inputs p.1).isSome
    · simp only [hg, if_true]
      exact ih r h (fun q hq => hne q (List.mem_cons_of_mem _ hq))
    · simp only [hg, if_false]
      refine ih _ ?_ (fun q hq => hne q (List.mem_cons_of_mem _ hq))
      rw [alookup_append_of_none _ h]
      simp [alookup, hne p (List.mem_cons_self _ _)]

theorem filter_not_mem_nil {α : Type} (inputs : List (String × α)) :
    inputs.filter (fun p => p.1 ∉ ([] : List String)) = inputs := by
  induction inputs with
  | nil => rfl
  | cons a t ih => simp [List.filter, ih]

theorem filter_mem_nil {α : Type} (inputs : List (String × α)) :
    inputs.filter (fun p => p.1 ∈ ([] : List String)) = [] := by
  induction inputs with
  | nil => rfl
  | cons a t ih => simp [List.filter, ih]

/-- With no wildcards, the initial state resolves exactly the supplied
inputs at cost 0 plus the unsupplied defaults at cost 1, with no seeds. -/
theorem initState_no_wild {α : Type} (d : Dispatcher α)
    (inputs : List (String × α)) :
    initState d inputs []
      = ([], ⟨seedDefaults inputs (inputs.map (fun p => (p.1, p.2, 0)))
          d.defaults, []⟩) := by
  simp [initState, filter_not_mem_nil, filter_mem_nil]

/-- Every supplied input stays bound to its supplied value (at cost 0)
throughout a wildcard-free resolution run. -/
theorem dispatch_inputs_resolved {α : Type} (d : Dispatcher α)
    (inputs : List (String × α)) (outR : Option (List String)) {k : String}
    {v : α} (h : alookup inputs k = some v) :
    alookup (d.dispatch inputs outR).resolved k = some (v, 0) := by
  unfold Dispatcher.dispatch dispatchW
  rw [initState_no_wild]
  apply dispatchLoop_persist
  apply seedDefaults_persist
  rw [alookup_map_cost, h]
  rfl

/-!
## The reachability closure computes the declarative reachability

The chain below: every saturation round only appends ids; membership after
a round means membership before or production by some function node; the
iteration saturates within `|idUniverse|` rounds by a pigeonhole argument
on lengths of duplicate-free lists; the saturated set is sound and complete
for the inductive predicate `Reachable`.
-/

theorem mem_addId {r : List String} {o x : String} :
    x ∈ addId r o ↔ x ∈ r ∨ x = o := by
  by_cases h : o ∈ r
  · simp only [addId, h, if_true]
    constructor
    · exact fun hx => Or.inl hx
    · rintro (hx | rfl)
      · exact hx
      · exact h
  · simp [addId, h]

theorem addId_append (r : List String) (o : String) :
    ∃ t, addId r o = r ++ t := by
  by_cases h : o ∈ r
  · exact ⟨[], by simp [addId, h]⟩
  · exact ⟨[o], by simp [addId, h]⟩

theorem addId_nodup {r : List String} (h : r.Nodup) (o : String) :
    (addId r o).Nodup := by
  by_cases ho : o ∈ r
  · simpa [addId, ho] using h
  · simp [addId, ho, List.nodup_append, h, ho]

theorem mem_foldl_addId {x : String} :
    ∀ (outs : List String) (r : List String),
      x ∈ outs.foldl addId r ↔ x ∈ r ∨ x ∈ outs := by
  intro outs
  induction outs with
  | nil => simp
  | cons o rest ih =>
    intro r
    simp only [List.foldl_cons, ih, mem_addId, List.mem_cons]
    tauto

theorem foldl_addId_append :
    ∀ (outs : List String) (r : List String), ∃ t, outs.foldl addId r = r ++ t := by
  intro outs
  induction outs with
  | nil => exact fun r => ⟨[], by simp⟩
  | cons o rest ih =>
    intro r
    obtain ⟨t1, ht1⟩ := addId_append r o
    obtain ⟨t2, ht2⟩ := ih (addId r o)
    exact ⟨t1 ++ t2, by rw [List.foldl_cons, ht2, ht1, List.append_assoc]⟩

theorem foldl_addId_nodup :
    ∀ (outs : List String) {r : List String}, r.Nodup → (outs.foldl addId r).Nodup := by
  intro outs
  induction outs with
  | nil => exact fun h => h
  | cons o rest ih => exact fun h => ih (addId_nodup h o)

theorem stepFn_append {α : Type} (r : List String) (f : FunctionNode α) :
    ∃ t, stepFn r f = r ++ t := by
  by_cases h : f.inputs.all (fun i => i ∈ r)
  · simpa [stepFn, h] using foldl_addId_append f.outputs r
  · exact ⟨[], by simp [stepFn, h]⟩

theorem mem_stepFn_of_mem {α : Type} {r : List String} {x : String}
    (f : FunctionNode α) (h : x ∈ r) : x ∈ stepFn r f := by
  obtain ⟨t, ht⟩ := stepFn_append r f
  rw [ht]
  exact List.mem_append_left _ h

theorem mem_stepFn_weak {α : Type} {r : List String} {x : String}
    {f : FunctionNode α} (h : x ∈ stepFn r f) : x ∈ r ∨ x ∈ f.outputs := by
  by_cases hc : f.inputs.all (fun i => i ∈ r)
  · rw [stepFn, if_pos hc, mem_foldl_addId] at h
    exact h
  · rw [stepFn, if_neg hc] at h
    exact Or.inl h

theorem stepFn_nodup {α : Type} {r : List String} (h : r.Nodup)
    (f : FunctionNode α) : (stepFn r f).Nodup := by
  by_cases hc : f.inputs.all (fun i => i ∈ r)
  · rw [stepFn, if_pos hc]
    exact foldl_addId_nodup _ h
  · rwa [stepFn, if_neg hc]

theorem foldl_stepFn_mono {α : Type} {x : String} :
    ∀ (l : List (FunctionNode α)) {r : List String}, x ∈ r →
      x ∈ l.foldl stepFn r := by
  intro l
  induction l with
  | nil => exact fun h => h
  | cons f rest ih => exact fun h => ih (mem_stepFn_of_mem f h)

theorem foldl_stepFn_append {α : Type} :
    ∀ (l : List (FunctionNode α)) (r : List String),
      ∃ t, l.foldl stepFn r = r ++ t := by
  intro l
  induction l with
  | nil => exact fun r => ⟨[], by simp⟩
  | cons f rest ih =>
    intro r
    obtain ⟨t1, ht1⟩ := stepFn_append r f
    obtain ⟨t2, ht2⟩ := ih (stepFn r f)
    exact ⟨t1 ++ t2, by rw [List.foldl_cons, ht2, ht1, List.append_assoc]⟩

theorem foldl_stepFn_weak {α : Type} {x : String} :
    ∀ (l : List (FunctionNode α)) (r : List String),
      x ∈ l.foldl stepFn r → x ∈ r ∨ ∃ f ∈ l, x ∈ f.outputs := by
  intro l
  induction l with
  | nil => exact fun r h => Or.inl h
  | cons f rest ih =>
    intro r h
    rcases ih (stepFn r f) h with h1 | ⟨g, hg, hx⟩
    · rcases mem_stepFn_weak h1 with h2 | h2
      · exact Or.inl h2
      · exact Or.inr ⟨f, List.mem_cons_self _ _, h2⟩
    · exact Or.inr ⟨g, List.mem_cons_of_mem _ hg, hx⟩

theorem foldl_stepFn_nodup {α : Type} :
    ∀ (l : List (FunctionNode α)) {r : List String}, r.Nodup →
      (l.foldl stepFn r).Nodup := by
  intro l
  induction l with
  | nil => exact fun h => h
  | cons f rest ih => exact fun h => ih (stepFn_nodup h f)

theorem foldl_stepFn_adds {α : Type} {o : String} {f : FunctionNode α} :
    ∀ (l : List (FunctionNode α)) (r : List String), f ∈ l →
      (∀ i ∈ f.inputs, i ∈ r) → o ∈ f.outputs → o ∈ l.foldl stepFn r := by
  intro l
  induction l with
  | nil => intro r h; simp at h
  | cons g rest ih =>
    intro r hmem hins ho
    rcases List.mem_cons.mp hmem with rfl | hmem
    · have hc : f.inputs.all (fun i => i ∈ r) := by
        rw [List.all_eq_true]
        intro i hi
        simpa using hins i hi
      rw [List.foldl_cons]
      apply foldl_stepFn_mono
      rw [stepFn, if_pos hc]
      exact (mem_foldl_addId _ _).mpr (Or.inr ho)
    · exact ih (stepFn r g) hmem
        (fun i hi => mem_stepFn_of_mem g (hins i hi)) ho

theorem foldl_stepFn_sound {α : Type} (fns : List (FunctionNode α))
    (ins : List String) :
    ∀ (l : List (FunctionNode α)) (r : List String), (∀ f ∈ l, f ∈ fns) →
      (∀ y ∈ r, Reachable fns ins y) →
      ∀ x ∈ l.foldl stepFn r, Reachable fns ins x := by
  intro l
  induction l with
  | nil => exact fun r _ hr x hx => hr x hx
  | cons f rest ih =>
    intro r hl hr x hx
    refine ih (stepFn r f) (fun g hg => hl g (List.mem_cons_of_mem _ hg)) ?_ x hx
    intro y hy
    by_cases hc : f.inputs.all (fun i => i ∈ r)
    · rw [stepFn, if_pos hc, mem_foldl_addId] at hy
      rcases hy with hy | hy
      · exact hr y hy
      · refine Reachable.output (hl f (List.mem_cons_self _ _)) ?_ hy
        intro i hi
        apply hr
        rw [List.all_eq_true] at hc
        simpa using hc i hi
    · rw [stepFn, if_neg hc] at hy
      exact hr y hy

theorem reachStep_mono {α : Type} (fns : List (FunctionNode α))
    {r : List String} {x : String} (h : x ∈ r) : x ∈ reachStep fns r :=
  foldl_stepFn_mono fns h

theorem reachIter_mono {α : Type} (fns : List (FunctionNode α))
    (ins : List String) {x : String} {m : Nat} (h : x ∈ reachIter fns ins m) :
    ∀ n, m ≤ n → x ∈ reachIter fns ins n := by
  intro n hmn
  induction n with
  | zero =>
    have : m = 0 := Nat.le_zero.mp hmn
    subst this
    exact h
  | succ k ih =>
    rcases Nat.lt_or_ge m (k + 1) with hlt | hge
    · exact reachStep_mono fns (ih (Nat.lt_succ_iff.mp hlt))
    · have : m = k + 1 := Nat.le_antisymm hmn hge
      subst this
      exact h

theorem reachIter_sat {α : Type} (fns : List (FunctionNode α))
    (ins : List String) {n : Nat}
    (h : reachStep fns (reachIter fns ins n) = reachIter fns ins n) :
    ∀ j, reachIter fns ins (n + j) = reachIter fns ins n := by
  intro j
  induction j with
  | zero => rfl
  | succ k ih =>
    show reachStep fns (reachIter fns ins (n + k)) = reachIter fns ins n
    rw [ih, h]

theorem reachIter_growth {α : Type} (fns : List (FunctionNode α))
    (ins : List String) :
    ∀ m, (∀ k, k < m → reachStep fns (reachIter fns ins k) ≠ reachIter fns ins k) →
      (reachIter fns ins 0).length + m ≤ (reachIter fns ins m).length := by
  intro m
  induction m with
  | zero => simp
  | succ k ih =>
    intro hne
    have h1 := ih (fun j hj => hne j (Nat.lt_succ_of_lt hj))
    have h2 : (reachIter fns ins k).length < (reachIter fns ins (k + 1)).length := by
      obtain ⟨t, ht⟩ := foldl_stepFn_append fns (reachIter fns ins k)
      have htne : t ≠ [] := by
        intro hnil
        apply hne k (Nat.lt_succ_self k)
        show List.foldl stepFn (reachIter fns ins k) fns = _
        rw [ht, hnil, List.append_nil]
      have : reachIter fns ins (k + 1) = reachIter fns ins k ++ t := ht
      rw [this, List.length_append]
      have : 0 < t.length := List.length_pos.mpr htne
      omega
    omega

theorem reachIter_bounded {α : Type} (fns : List (FunctionNode α))
    (ins : List String) :
    ∀ n, (reachIter fns ins n).Nodup ∧
      reachIter fns ins n ⊆ idUniverse fns ins := by
  intro n
  induction n with
  | zero =>
    refine ⟨List.nodup_dedup ins, ?_⟩
    intro x hx
    have hx2 : x ∈ ins := List.mem_dedup.mp hx
    rw [idUniverse, List.mem_dedup]
    exact List.mem_append_left _ hx2
  | succ k ih =>
    refine ⟨foldl_stepFn_nodup fns ih.1, ?_⟩
    intro x hx
    rcases foldl_stepFn_weak fns _ hx with h | ⟨f, hf, hxo⟩
    · exact ih.2 h
    · rw [idUniverse, List.mem_dedup]
      refine List.mem_append_right _ ?_
      rw [List.mem_flatMap]
      exact ⟨f, hf, hxo⟩

theorem reachIter_length_le {α : Type} (fns : List (FunctionNode α))
    (ins : List String) (n : Nat) :
    (reachIter fns ins n).length ≤ (idUniverse fns ins).length := by
  obtain ⟨hnd, hsub⟩ := reachIter_bounded fns ins n
  exact (hnd.subperm hsub).length_le

theorem reachClosure_fix {α : Type} (fns : List (FunctionNode α))
    (ins : List String) :
    reachStep fns (reachClosure fns ins) = reachClosure fns ins := by
  have hsat : ∃ k, k ≤ (idUniverse fns ins).length ∧
      reachStep fns (reachIter fns ins k) = reachIter fns ins k := by
    by_contra hno
    push_neg at hno
    have hne : ∀ k, k < (idUniverse fns ins).length + 1 →
        reachStep fns (reachIter fns ins k) ≠ reachIter fns ins k := by
      intro k hk
      exact hno k (Nat.lt_succ_iff.mp hk)
    have h1 := reachIter_growth fns ins ((idUniverse fns ins).length + 1) hne
    have h2 := reachIter_length_le fns ins ((idUniverse fns ins).length + 1)
    omega
  obtain ⟨k, hk, hfix⟩ := hsat
  have heq : reachClosure fns ins = reachIter fns ins k := by
    show reachIter fns ins ((idUniverse fns ins).length + 1) = _
    have : (idUniverse fns ins).length + 1 = k + ((idUniverse fns ins).length + 1 - k) := by
      omega
    rw [this, reachIter_sat fns ins hfix]
  rw [heq, hfix]

theorem reachClosure_sound {α : Type} (fns : List (FunctionNode α))
    (ins : List String) :
    ∀ x ∈ reachClosure fns ins, Reachable fns ins x := by
  have haux : ∀ n, ∀ x ∈ reachIter fns ins n, Reachable fns ins x := by
    intro n
    induction n with
    | zero =>
      intro x hx
      rw [reachIter, List.mem_dedup] at hx
      exact Reachable.input hx
    | succ k ih => exact foldl_stepFn_sound fns ins fns _ (fun f hf => hf) ih
  exact haux _

theorem reachClosure_complete {α : Type} {fns : List (FunctionNode α)}
    {ins : List String} {x : String} (h : Reachable fns ins x) :
    x ∈ reachClosure fns ins := by
  induction h with
  | @input o hx =>
    have h0 : o ∈ reachIter fns ins 0 := by
      show o ∈ ins.dedup
      rw [List.mem_dedup]
      exact hx
    exact reachIter_mono fns ins h0 _ (Nat.zero_le _)
  | @output f o hf hins ho ih =>
    have := foldl_stepFn_adds fns (reachClosure fns ins) hf ih ho
    rwa [show List.foldl stepFn (reachClosure fns ins) fns
        = reachStep fns (reachClosure fns ins) from rfl,
      reachClosure_fix] at this

/-- The executable reachability closure decides the declarative
reachability predicate. -/
theorem mem_reachClosure_iff {α : Type} (fns : List (FunctionNode α))
    (ins : List String) (x : String) :
    x ∈ reachClosure fns ins ↔ Reachable fns ins x :=
  ⟨reachClosure_sound fns ins x, reachClosure_complete⟩

/-!
## Candidate selection lemmas
-/

theorem alookup_eq_none_iff {β : Type} (l : List (String × β)) (k : String) :
    alookup l k = none ↔ ∀ p ∈ l, p.1 ≠ k := by
  induction l with
  | nil => simp [alookup]
  | cons a t ih =>
    by_cases hk : a.1 = k
    · simp [alookup, hk]
    · simp [alookup, hk, ih]

theorem lookupAll_eq_none_iff {α : Type} (f : String → Option α) :
    ∀ (names : List String),
      lookupAll names f = none ↔ ∃ o ∈ names, f o = none := by
  intro names
  induction names with
  | nil => simp [lookupAll]
  | cons o t ih =>
    cases ho : f o with
    | none => simp [lookupAll, ho]
    | some v =>
      simp only [lookupAll, ho]
      constructor
      · intro h
        cases ht : lookupAll t f with
        | none =>
          obtain ⟨o2, ho2, hn⟩ := ih.mp ht
          exact ⟨o2, List.mem_cons_of_mem _ ho2, hn⟩
        | some vs => simp [ht] at h
      · rintro ⟨o2, ho2, hn⟩
        rcases List.mem_cons.mp ho2 with rfl | ho2
        · rw [ho] at hn
          cases hn
        · rw [ih.mpr ⟨o2, ho2, hn⟩]
          rfl

theorem lookupAll_mapM_vals {α : Type} (f : String → Option α) :
    ∀ (names : List String) (vs : List α), lookupAll names f = some vs →
      vs.length = names.length ∧ ∀ o ∈ names, (f o).isSome := by
  intro names
  induction names with
  | nil =>
    intro vs h
    simp only [lookupAll, Option.some_inj] at h
    subst h
    simp
  | cons o t ih =>
    intro vs h
    cases ho : f o with
    | none => simp [lookupAll, ho] at h
    | some v =>
      simp only [lookupAll, ho] at h
      cases ht : lookupAll t f with
      | none => simp [ht] at h
      | some vs2 =>
        rw [ht] at h
        simp only [Option.map_some', Option.some_inj] at h
        subst h
        obtain ⟨hlen, hall⟩ := ih vs2 ht
        refine ⟨by simp [hlen], ?_⟩
        intro o2 ho2
        rcases List.mem_cons.mp ho2 with rfl | ho2
        · simp [ho]
        · exact hall o2 ho2

theorem alookup_nil_seed {α : Type} (i : String) :
    alookup ([] : List (String × α)) i = none := rfl

/-- When every needed input is resolved at cost 0, `argvals` produces the
input values, each at cost 0. -/
theorem argvals_of_inputs {α : Type} {inputs : List (String × α)}
    {resolved : List (String × α × Nat)}
    (hok : ∀ i v, alookup inputs i = some v → alookup resolved i = some (v, 0)) :
    ∀ (ins : List String) (vs : List α),
      lookupAll ins (alookup inputs) = some vs →
      argvals [] resolved ins = some (vs.map (fun v => (v, 0))) := by
  intro ins
  induction ins with
  | nil =>
    intro vs h
    simp only [lookupAll, Option.some_inj] at h
    subst h
    rfl
  | cons i t ih =>
    intro vs h
    cases hi : alookup inputs i with
    | none => simp [lookupAll, hi] at h
    | some v =>
      simp only [lookupAll, hi] at h
      cases ht : lookupAll t (alookup inputs) with
      | none => simp [ht] at h
      | some vs2 =>
        rw [ht] at h
        simp only [Option.map_some', Option.some_inj] at h
        subst h
        simp only [argvals, alookup_nil_seed, hok i v hi, ih vs2 ht,
          Option.map_some', List.map_cons]

theorem maxCost_zeros {α : Type} (vs : List α) :
    maxCost ((vs.map (fun v => (v, (0 : Nat)))).map Prod.snd) = 0 := by
  induction vs with
  | nil => rfl
  | cons v t ih =>
    simp only [List.map_cons, maxCost]
    rw [ih]
    simp

theorem candCost_of_inputs {α : Type} (f : FunctionNode α) (vs : List α) :
    candCost f (vs.map (fun v => (v, 0))) = 2 * f.weight := by
  unfold candCost
  rw [maxCost_zeros]
  omega

theorem fired_length_le {n : Nat} {l : List Nat} (h : l.Nodup)
    (hb : ∀ i ∈ l, i < n) : l.length ≤ n := by
  have := h.subperm (fun x hx => List.mem_range.mpr (hb x hx))
  simpa using this.length_le

theorem recordOuts_not_mem {α : Type} {c : Nat} {k : String} :
    ∀ (outs : List (String × α)) (r : List (String × α × Nat)),
      k ∉ outs.map Prod.fst →
      alookup (recordOuts c r outs) k = alookup r k := by
  intro outs
  induction outs with
  | nil => intro r _; rfl
  | cons a rest ih =>
    intro r hk
    have hk1 : a.1 ≠ k := by
      intro he
      exact hk (by simp [he.symm])
    have hk2 : k ∉ rest.map Prod.fst := by
      intro hm
      exact hk (by simp [hm])
    simp only [recordOuts]
    by_cases hs : (alookup r a.1).isSome
    · simp only [hs, if_true]
      exact ih r hk2
    · rw [if_neg hs, ih _ hk2]
      cases hr : alookup r k with
      | none =>
        rw [alookup_append_of_none _ hr]
        simp [alookup, hk1]
      | some x => exact alookup_append_of_some _ hr

theorem mem_candidatesFrom_intro {α : Type} {seeds : List (String × α)}
    {st : DState α} {f : FunctionNode α} {avs : List (α × Nat)} :
    ∀ (l : List (FunctionNode α)) (i0 k : Nat), l.get? k = some f →
      (i0 + k) ∉ st.fired →
      argvals seeds st.resolved f.inputs = some avs →
      f.domain (avs.map Prod.fst) = true →
      (i0 + k, f, avs) ∈ candidatesFrom seeds st i0 l := by
  intro l
  induction l with
  | nil => intro i0 k h; simp at h
  | cons g rest ih =>
    intro i0 k hget hfired hargs hdom
    cases k with
    | zero =>
      simp only [List.get?, Option.some_inj] at hget
      subst hget
      simp only [candidatesFrom, Nat.add_zero] at hfired ⊢
      rw [if_neg hfired]
      simp [hargs, hdom]
    | succ k2 =>
      simp only [List.get?] at hget
      have h2 : (i0 + 1) + k2 ∉ st.fired := by
        simpa [Nat.add_assoc, Nat.add_comm 1 k2] using hfired
      have := ih (i0 + 1) k2 hget h2 hargs hdom
      have hrw : i0 + 1 + k2 = i0 + (k2 + 1) := by omega
      rw [hrw] at this
      simp only [candidatesFrom]
      by_cases hgf : i0 ∈ st.fired
      · simpa [hgf] using this
      · simp only [hgf, if_false]
        cases hag : argvals seeds st.resolved g.inputs with
        | none => simpa [hag] using this
        | some avs2 =>
          simp only [hag]
          by_cases hdg : g.domain (avs2.map Prod.fst)
          · simp only [hdg, if_true]
            exact List.mem_cons_of_mem _ this
          · simpa [hdg] using this

theorem mem_candidatesFrom_elim {α : Type} {seeds : List (String × α)}
    {st : DState α} {j : Nat} {g : FunctionNode α} {avs : List (α × Nat)} :
    ∀ (l : List (FunctionNode α)) (i0 : Nat),
      (j, g, avs) ∈ candidatesFrom seeds st i0 l →
      j ∉ st.fired ∧ argvals seeds st.resolved g.inputs = some avs ∧
        g.domain (avs.map Prod.fst) = true ∧
        ∃ k, l.get? k = some g ∧ j = i0 + k := by
  intro l
  induction l with
  | nil => intro i0 h; simp [candidatesFrom] at h
  | cons f rest ih =>
    intro i0 h
    simp only [candidatesFrom] at h
    by_cases hgf : i0 ∈ st.fired
    · rw [if_pos hgf] at h
      obtain ⟨h1, h2, h3, k, hk, hj⟩ := ih (i0 + 1) h
      exact ⟨h1, h2, h3, k + 1, by simpa using hk, by omega⟩
    · rw [if_neg hgf] at h
      cases hag : argvals seeds st.resolved f.inputs with
      | none =>
        simp only [hag] at h
        obtain ⟨h1, h2, h3, k, hk, hj⟩ := ih (i0 + 1) h
        exact ⟨h1, h2, h3, k + 1, by simpa using hk, by omega⟩
      | some avs2 =>
        simp only [hag] at h
        by_cases hdg : f.domain (avs2.map Prod.fst)
        · rw [if_pos hdg] at h
          rcases List.mem_cons.mp h with heq | h
          · obtain ⟨rfl, rfl, rfl⟩ : j = i0 ∧ g = f ∧ avs = avs2 := by
              injection heq with e1 e2
              injection e2 with e3 e4
              exact ⟨e1, e3, e4⟩
            exact ⟨hgf, hag, hdg, 0, rfl, by omega⟩
          · obtain ⟨h1, h2, h3, k, hk, hj⟩ := ih (i0 + 1) h
            exact ⟨h1, h2, h3, k + 1, by simpa using hk, by omega⟩
        · rw [if_neg hdg] at h
          obtain ⟨h1, h2, h3, k, hk, hj⟩ := ih (i0 + 1) h
          exact ⟨h1, h2, h3, k + 1, by simpa using hk, by omega⟩

theorem pickStep_spec {α : Type} {acc : Option (Nat × FunctionNode α × List (α × Nat))}
    {c b : Nat × FunctionNode α × List (α × Nat)}
    (h : pickStep acc c = some b) :
    candCost b.2.1 b.2.2 ≤ candCost c.2.1 c.2.2 ∧
      (∀ a, acc = some a → candCost b.2.1 b.2.2 ≤ candCost a.2.1 a.2.2) ∧
      (b = c ∨ acc = some b) := by
  cases acc with
  | none =>
    simp only [pickStep, Option.some_inj] at h
    subst h
    refine ⟨Nat.le_refl _, ?_, Or.inl rfl⟩
    intro a ha
    cases ha
  | some a =>
    simp only [pickStep] at h
    by_cases hlt : candCost c.2.1 c.2.2 < candCost a.2.1 a.2.2
    · rw [if_pos hlt] at h
      injection h with h
      subst h
      refine ⟨Nat.le_refl _, ?_, Or.inl rfl⟩
      intro x hx
      injection hx with hx
      subst hx
      exact Nat.le_of_lt hlt
    · rw [if_neg hlt] at h
      injection h with h
      subst h
      refine ⟨Nat.le_of_not_lt hlt, ?_, Or.inr rfl⟩
      intro x hx
      injection hx with hx
      subst hx
      exact Nat.le_refl _

theorem pickStep_isSome {α : Type} (acc : Option (Nat × FunctionNode α × List (α × Nat)))
    (c : Nat × FunctionNode α × List (α × Nat)) : (pickStep acc c).isSome := by
  cases acc with
  | none => rfl
  | some a =>
    simp only [pickStep]
    by_cases hlt : candCost c.2.1 c.2.2 < candCost a.2.1 a.2.2
    · rw [if_pos hlt]
      rfl
    · rw [if_neg hlt]
      rfl

theorem foldl_pickStep_spec {α : Type} :
    ∀ (l : List (Nat × FunctionNode α × List (α × Nat)))
      (acc : Option (Nat × FunctionNode α × List (α × Nat)))
      (m : Nat × FunctionNode α × List (α × Nat)),
      l.foldl pickStep acc = some m →
      (m ∈ l ∨ acc = some m) ∧
        (∀ c ∈ l, candCost m.2.1 m.2.2 ≤ candCost c.2.1 c.2.2) ∧
        (∀ b, acc = some b → candCost m.2.1 m.2.2 ≤ candCost b.2.1 b.2.2) := by
  intro l
  induction l with
  | nil =>
    intro acc m h
    simp only [List.foldl_nil] at h
    refine ⟨Or.inr h, by simp, fun b hb => ?_⟩
    rw [h] at hb
    injection hb with hb
    subst hb
    exact Nat.le_refl _
  | cons c rest ih =>
    intro acc m h
    rw [List.foldl_cons] at h
    obtain ⟨hmem, hmin, hacc⟩ := ih (pickStep acc c) m h
    have hsome : ∃ b, pickStep acc c = some b := by
      have := pickStep_isSome acc c
      cases hb : pickStep acc c with
      | none => rw [hb] at this; cases this
      | some b => exact ⟨b, rfl⟩
    obtain ⟨b, hb⟩ := hsome
    obtain ⟨hbc, hbacc, hbor⟩ := pickStep_spec hb
    have hmb : candCost m.2.1 m.2.2 ≤ candCost b.2.1 b.2.2 := hacc b hb
    refine ⟨?_, ?_, ?_⟩
    · rcases hmem with hm | hm
      · exact Or.inl (List.mem_cons_of_mem _ hm)
      · obtain ⟨_, _, hor⟩ := pickStep_spec hm
        rcases hor with rfl | hor
        · exact Or.inl (List.mem_cons_self _ _)
        · exact Or.inr hor
    · intro x hx
      rcases List.mem_cons.mp hx with rfl | hx
      · exact Nat.le_trans hmb hbc
      · exact hmin x hx
    · intro a ha
      exact Nat.le_trans hmb (hbacc a ha)

theorem pickMin_spec {α : Type}
    {l : List (Nat × FunctionNode α × List (α × Nat))}
    {x : Nat × FunctionNode α × List (α × Nat)} (hx : x ∈ l) :
    ∃ m, pickMin l = some m ∧ m ∈ l ∧
      ∀ c ∈ l, candCost m.2.1 m.2.2 ≤ candCost c.2.1 c.2.2 := by
  have hne : ∃ m, pickMin l = some m := by
    cases l with
    | nil => cases hx
    | cons c rest =>
      have haux : ∀ (r : List (Nat × FunctionNode α × List (α × Nat)))
          (acc : Option (Nat × FunctionNode α × List (α × Nat))),
          acc.isSome → (r.foldl pickStep acc).isSome := by
        intro r
        induction r with
        | nil => exact fun acc h => h
        | cons y t iht =>
          intro acc _
          rw [List.foldl_cons]
          exact iht _ (pickStep_isSome acc y)
      have : (pickMin (c :: rest)).isSome := by
        show ((c :: rest).foldl pickStep none).isSome
        rw [List.foldl_cons]
        exact haux rest _ (pickStep_isSome none c)
      cases hm : pickMin (c :: rest) with
      | none => rw [hm] at this; cases this
      | some m => exact ⟨m, rfl⟩
  obtain ⟨m, hm⟩ := hne
  obtain ⟨hmem, hmin, _⟩ := foldl_pickStep_spec l none m hm
  rcases hmem with hmem | hmem
  · exact ⟨m, hm, hmem, hmin⟩
  · cases hmem

theorem map_fst_costs {α : Type} (vs : List α) :
    (vs.map (fun v => (v, (0 : Nat)))).map Prod.fst = vs := by
  induction vs with
  | nil => rfl
  | cons v t ih => simp [ih]

theorem mem_map_fst_zip {α : Type} {x : String}
    (l1 : List String) (l2 : List α)
    (h : x ∈ (l1.zip l2).map Prod.fst) : x ∈ l1 := by
  rw [List.mem_map] at h
  obtain ⟨p, hp, rfl⟩ := h
  exact (List.of_mem_zip hp).1

/-- The workhorse behind the lower-weight-wins property: as long as the
output `cid` is unresolved, the cheaper of its two producers is a candidate
at cost `2 * F.weight`, so no candidate producing `cid` at a higher cost can
be selected; when a producer of `cid` finally fires it is (a copy of) the
cheap one, and first-resolution-wins then freezes its value. -/
theorem loop_cheap_wins {α : Type} (d : Dispatcher α)
    (inputs : List (String × α)) (F G : FunctionNode α) (cid : String)
    (vF : α) (argsF argsG : List α)
    (hFmem : F ∈ d.functions)
    (hOnly : ∀ f ∈ d.functions, cid ∈ f.outputs → f = F ∨ f = G)
    (hFouts : F.outputs = [cid]) (hGouts : G.outputs = [cid])
    (hFargs : lookupAll F.inputs (alookup inputs) = some argsF)
    (hGargs : lookupAll G.inputs (alookup inputs) = some argsG)
    (hFdom : F.domain argsF = true) (hGdom : G.domain argsG = true)
    (hFval : F.func argsF = [vF]) (hW : F.weight < G.weight) :
    ∀ (fuel : Nat) (st : DState α),
      (∀ i v, alookup inputs i = some v → alookup st.resolved i = some (v, 0)) →
      st.fired.Nodup → (∀ i ∈ st.fired, i < d.functions.length) →
      ((alookup st.resolved cid = none ∧
          ∀ k, d.functions.get? k = some F → k ∉ st.fired) ∨
        (∃ c, alookup st.resolved cid = some (vF, c))) →
      d.functions.length + 1 ≤ fuel + st.fired.length →
      (dispatchLoop d [] none fuel st).val cid = some vF := by
  intro fuel
  induction fuel with
  | zero =>
    intro st hok hnd hbd hinv hfuel
    exfalso
    have := fired_length_le hnd hbd
    omega
  | succ n ih =>
    intro st hok hnd hbd hinv hfuel
    cases hp : pickMin (candidatesOf d [] st) with
    | none =>
      have hres : dispatchLoop d [] none (n + 1) st = st := by
        simp [dispatchLoop, stopNow, hp]
      rcases hinv with ⟨hnone, hunf⟩ | ⟨c, hc⟩
      · -- the cheap producer is a candidate, so the frontier cannot be empty
        exfalso
        obtain ⟨kF, hkF⟩ := List.mem_iff_get?.mp hFmem
        have hargsF : argvals [] st.resolved F.inputs
            = some (argsF.map (fun v => (v, 0))) :=
          argvals_of_inputs hok _ _ hFargs
        have hdomF : F.domain ((argsF.map (fun v => (v, 0))).map Prod.fst) = true := by
          rw [map_fst_costs]
          exact hFdom
        have hcand := mem_candidatesFrom_intro d.functions 0 kF hkF
          (by simpa using hunf kF hkF) hargsF hdomF
        have hcand2 : (kF, F, argsF.map (fun v => (v, 0)))
            ∈ candidatesOf d [] st := by
          simpa [candidatesOf] using hcand
        obtain ⟨m, hm, _, _⟩ := pickMin_spec hcand2
        rw [hp] at hm
        cases hm
      · rw [hres]
        show (alookup st.resolved cid).map Prod.fst = some vF
        rw [hc]
        rfl
    | some m =>
      obtain ⟨j, g, avs⟩ := m
      have hres : dispatchLoop d [] none (n + 1) st
          = dispatchLoop d [] none n (fireCand st j g avs) := by
        simp [dispatchLoop, stopNow, hp]
      rw [hres]
      rcases hinv with ⟨hnone, hunf⟩ | ⟨c, hc⟩
      · -- cid still unresolved: analyse the selected candidate
        obtain ⟨kF, hkF⟩ := List.mem_iff_get?.mp hFmem
        have hargsF : argvals [] st.resolved F.inputs
            = some (argsF.map (fun v => (v, 0))) :=
          argvals_of_inputs hok _ _ hFargs
        have hdomF : F.domain ((argsF.map (fun v => (v, 0))).map Prod.fst) = true := by
          rw [map_fst_costs]
          exact hFdom
        have hcand := mem_candidatesFrom_intro d.functions 0 kF hkF
          (by simpa using hunf kF hkF) hargsF hdomF
        have hcand2 : (kF, F, argsF.map (fun v => (v, 0)))
            ∈ candidatesOf d [] st := by
          simpa [candidatesOf] using hcand
        obtain ⟨m2, hm2, hm2mem, hm2min⟩ := pickMin_spec hcand2
        rw [hp] at hm2
        injection hm2 with hm2
        subst hm2
        have hminF : candCost g avs ≤ 2 * F.weight := by
          have := hm2min _ hcand2
          simpa [candCost_of_inputs] using this
        obtain ⟨hjunf, hgargs, hgdom, kg, hkg, hjk⟩ :=
          mem_candidatesFrom_elim d.functions 0
            (by simpa [candidatesOf] using hm2mem)
        have hgmem : g ∈ d.functions := List.get?_mem hkg
        by_cases hcout : cid ∈ g.outputs
        · rcases hOnly g hgmem hcout with rfl | rfl
          · -- the selected candidate is (a copy of) the cheap producer
            have havs : avs = argsF.map (fun v => (v, 0)) := by
              rw [hargsF] at hgargs
              injection hgargs with h2
              exact h2.symm
            subst havs
            have hfire : alookup (fireCand st j g
                (argsF.map (fun v => (v, 0)))).resolved cid
                = some (vF, candCost g (argsF.map (fun v => (v, 0)))) := by
              show alookup (recordOuts _ st.resolved
                (g.outputs.zip (g.func ((argsF.map (fun v => (v, 0))).map Prod.fst))))
                cid = _
              rw [map_fst_costs, hFval, hFouts]
              show alookup (if (alookup st.resolved cid).isSome
                then recordOuts _ st.resolved []
                else recordOuts _ (st.resolved ++ [(cid, vF, _)]) []) cid = _
              rw [hnone]
              show alookup (st.resolved ++ [(cid, vF, _)]) cid = _
              rw [alookup_append_of_none _ hnone]
              simp [alookup]
            apply ih
            · intro i v hv
              exact fireCand_persist (hok i v hv)
            · simpa [fireCand, List.nodup_append] using ⟨hnd, hjunf⟩
            · intro i hi
              rcases (by simpa [fireCand] using hi : i ∈ st.fired ∨ i = j) with h1 | h1
              · exact hbd i h1
              · subst h1
                rw [hjk]
                have hlt := (List.get?_eq_some.mp hkg).1
                omega
            · exact Or.inr ⟨_, hfire⟩
            · have : (fireCand st j g (argsF.map (fun v => (v, 0)))).fired.length
                  = st.fired.length + 1 := by
                simp [fireCand]
              omega
          · -- the selected candidate cannot be the expensive producer
            exfalso
            have havs : avs = argsG.map (fun v => (v, 0)) := by
              have hargsG : argvals [] st.resolved g.inputs
                  = some (argsG.map (fun v => (v, 0))) :=
                argvals_of_inputs hok _ _ hGargs
              rw [hargsG] at hgargs
              injection hgargs with h2
              exact h2.symm
            subst havs
            rw [candCost_of_inputs] at hminF
            omega
        · -- the selected candidate does not touch cid
          have hgF : g ≠ F := by
            intro he
            subst he
            rw [hFouts] at hcout
            exact hcout (List.mem_cons_self _ _)
          have hcidkeep : alookup (fireCand st j g avs).resolved cid = none := by
            show alookup (recordOuts _ st.resolved
              (g.outputs.zip (g.func (avs.map Prod.fst)))) cid = none
            rw [recordOuts_not_mem _ _ (fun hmem2 => hcout (mem_map_fst_zip _ _ hmem2))]
            exact hnone
          apply ih
          · intro i v hv
            exact fireCand_persist (hok i v hv)
          · simpa [fireCand, List.nodup_append] using ⟨hnd, hjunf⟩
          · intro i hi
            rcases (by simpa [fireCand] using hi : i ∈ st.fired ∨ i = j) with h1 | h1
            · exact hbd i h1
            · subst h1
              rw [hjk]
              have hlt := (List.get?_eq_some.mp hkg).1
              omega
          · refine Or.inl ⟨hcidkeep, ?_⟩
            intro k hk hkmem
            rcases (by simpa [fireCand] using hkmem : k ∈ st.fired ∨ k = j) with h1 | h1
            · exact hunf k hk h1
            · subst h1
              rw [hjk, Nat.zero_add] at hk
              rw [hk] at hkg
              injection hkg with he
              exact hgF he.symm
          · have : (fireCand st j g avs).fired.length = st.fired.length + 1 := by
              simp [fireCand]
            omega
      · -- cid already carries the cheap producer's value: it persists
        have hkeep := dispatchLoop_persist d [] none n
          (fireCand st j g avs) (fireCand_persist hc)
        show (alookup (dispatchLoop d [] none n (fireCand st j g avs)).resolved
          cid).map Prod.fst = some vF
        rw [hkeep]
        rfl

/-!
## Two-producer stores for the weight-selection claim
-/

/-- Producer of `c` with the smaller weight, used as a concrete witness. -/
def nodeA : FunctionNode Int :=
  ⟨"A", fun _ => [10], ["a"], ["c"], 1, fun _ => true⟩

/-- Producer of `c` with the larger weight, used as a concrete witness. -/
def nodeB : FunctionNode Int :=
  ⟨"B", fun _ => [20], ["a"], ["c"], 2, fun _ => true⟩

/-- A store whose only two function nodes produce the same output `c` from
the supplied input `a`, the cheaper one declared first. -/
def twoProdDsp : Dispatcher Int := ⟨[nodeA, nodeB], []⟩

/-- The same store with the two producers declared in the opposite order. -/
def twoProdDspRev : Dispatcher Int := ⟨[nodeB, nodeA], []⟩

end CoDsp

namespace CoDsp

/-- Claim C9: a dispatch call without an output restriction keeps every
supplied input key bound to its supplied value in the results mapping
(inputs are resolved at cost 0 before anything fires and a resolved data
node is never overwritten). -/
theorem claim_C9_inputs_preserved {α : Type} (d : Dispatcher α)
    (inputs : List (String × α)) (k : String) (v : α)
    (h : alookup inputs k = some v) :
    (d.dispatch inputs none).val k = some v := by
  show (alookup (d.dispatch inputs none).resolved k).map Prod.fst = some v
  rw [dispatch_inputs_resolved d inputs none h]
  rfl

/-- Witness for C9 at the `test_replicate_function` scenario: the input
`a = 3` is still present in the results. -/
theorem claim_C9_witness :
    alookup [("a", V.i 3), ("b", V.i 4)] "a" = some (V.i 3) ∧
    (replicateDsp.dispatch [("a", V.i 3), ("b", V.i 4)] none).val "a"
      = some (V.i 3) :=
  ⟨rfl, claim_C9_inputs_preserved replicateDsp [("a", V.i 3), ("b", V.i 4)]
    "a" (V.i 3) rfl⟩

/-- Claim C6 (amended): when additionally both producers of the output draw
all their inputs directly from the supplied dispatch inputs, are its only
producers, their domain predicates accept those inputs, and the output is
neither supplied nor defaulted, the value present in the unrestricted
results for that output is the one computed by the lower-weighted producer
(regardless of declaration order).  Without the direct-input condition the
claim fails, see the counterexample. -/
theorem claim_C6_lower_weight_wins_amended {α : Type} (d : Dispatcher α)
    (inputs : List (String × α)) (F G : FunctionNode α) (cid : String)
    (vF : α) (argsF argsG : List α)
    (hFmem : F ∈ d.functions)
    (hOnly : ∀ f ∈ d.functions, cid ∈ f.outputs → f = F ∨ f = G)
    (hFouts : F.outputs = [cid]) (hGouts : G.outputs = [cid])
    (hFargs : lookupAll F.inputs (alookup inputs) = some argsF)
    (hGargs : lookupAll G.inputs (alookup inputs) = some argsG)
    (hFdom : F.domain argsF = true) (hGdom : G.domain argsG = true)
    (hFval : F.func argsF = [vF]) (hW : F.weight < G.weight)
    (hcidIn : alookup inputs cid = none)
    (hcidDef : alookup d.defaults cid = none) :
    (d.dispatch inputs none).val cid = some vF := by
  unfold Dispatcher.dispatch dispatchW
  rw [initState_no_wild]
  apply loop_cheap_wins d inputs F G cid vF argsF argsG hFmem hOnly hFouts
    hGouts hFargs hGargs hFdom hGdom hFval hW
  · intro i v hv
    apply seedDefaults_persist
    rw [alookup_map_cost, hv]
    rfl
  · exact List.nodup_nil
  · intro i hi
    simp at hi
  · refine Or.inl ⟨?_, ?_⟩
    · apply seedDefaults_absent
      · rw [alookup_map_cost, hcidIn]
        rfl
      · exact (alookup_eq_none_iff _ _).mp hcidDef
    · intro k hk hmem
      simp at hmem
  · simp

/-- Counterexample to claim C6 as stated: in `chainDsp` the two producers
of `c` are `A` (weight 0, input `x`) and `B` (weight 50, input `s`); both
fire during the run (both are feasible), but `A`'s input `x` only becomes
available through `h` at cost 200, so `c` is first resolved by the
higher-weighted `B` and carries `B`'s value 1, not `A`'s value 2. -/
theorem claim_C6_counterexample :
    chainDsp.functions.map FunctionNode.weight = [100, 0, 50] ∧
    (chainDsp.dispatch [("s", (0 : Int))] none).fired = [2, 0, 1] ∧
    (chainDsp.dispatch [("s", (0 : Int))] none).val "c" = some 1 ∧
    (1 : Int) ≠ 2 :=
  ⟨rfl, rfl, rfl, by decide⟩

/-- Witness for the amended C6 at the two-producer stores, in both
declaration orders: the lower-weighted producer's value 10 wins. -/
theorem claim_C6_witness :
    nodeA.weight < nodeB.weight ∧
    (twoProdDsp.dispatch [("a", (5 : Int))] none).val "c" = some 10 ∧
    (twoProdDspRev.dispatch [("a", (5 : Int))] none).val "c" = some 10 := by
  refine ⟨by decide, ?_, ?_⟩
  · apply claim_C6_lower_weight_wins_amended twoProdDsp [("a", (5 : Int))]
      nodeA nodeB "c" 10 [5] [5]
    · exact List.mem_cons_self _ _
    · intro f hf _
      rcases List.mem_cons.mp hf with rfl | hf
      · exact Or.inl rfl
      · rcases List.mem_cons.mp hf with rfl | hf
        · exact Or.inr rfl
        · cases hf
    · rfl
    · rfl
    · rfl
    · rfl
    · rfl
    · rfl
    · rfl
    · decide
    · rfl
    · rfl
  · apply claim_C6_lower_weight_wins_amended twoProdDspRev [("a", (5 : Int))]
      nodeA nodeB "c" 10 [5] [5]
    · exact List.mem_cons_of_mem _ (List.mem_cons_self _ _)
    · intro f hf _
      rcases List.mem_cons.mp hf with rfl | hf
      · exact Or.inr rfl
      · rcases List.mem_cons.mp hf with rfl | hf
        · exact Or.inl rfl
        · cases hf
    · rfl
    · rfl
    · rfl
    · rfl
    · rfl
    · rfl
    · rfl
    · decide
    · rfl
    · rfl

/-- Counterexample to claim C1 as stated: registering a second function
node under the already-used explicit id `dispatch_list` (the shape of
`TestSubDispatcher.setUp` lines 77-78) does not raise; the second node is
registered under a suffixed id and both nodes fire, exactly as the test's
assertions on `o['g']` and `o['h']` demand. -/
theorem claim_C1_counterexample :
    dupIdDsp.fids = ["dispatch_list", "dispatch_list<0>"] ∧
    dupIdDsp.functions.length = 2 ∧
    (dupIdDsp.dispatch [("d", (5 : Int))] none).val "g" = some 6 ∧
    (dupIdDsp.dispatch [("d", (5 : Int))] none).val "h" = some 4 :=
  ⟨rfl, rfl, rfl, rfl⟩

theorem append_angle_ne (base s : String) : base ++ "<" ++ s ++ ">" ≠ base := by
  intro h
  have hlen := congrArg String.length h
  rw [String.length_append, String.length_append, String.length_append] at hlen
  have h1 : ("<" : String).length = 1 := rfl
  have h2 : (">" : String).length = 1 := rfl
  omega

theorem freshSuffix_ne (used : List String) (base : String) :
    ∀ (fuel k : Nat), freshSuffix used base fuel k ≠ base := by
  intro fuel
  induction fuel with
  | zero =>
    intro k
    exact append_angle_ne base (Nat.repr k)
  | succ n ih =>
    intro k
    simp only [freshSuffix]
    by_cases hmem : (base ++ "<" ++ Nat.repr k ++ ">") ∈ used
    · rw [if_pos hmem]
      exact ih (k + 1)
    · rw [if_neg hmem]
      exact append_angle_ne base (Nat.repr k)

/-- Claim C1 (amended): `add_function` with an explicit id that already
names an existing function node does not raise; it registers the new node
at the end of the store under a modified (suffixed) id, leaving the
existing nodes untouched, so the two nodes never share the explicit id. -/
theorem claim_C1_duplicate_id_amended {α : Type} (d : Dispatcher α)
    (fid : String) (f : List α → List α) (ins outs : List String) (w : Nat)
    (dom : List α → Bool) (h : fid ∈ d.fids) :
    (d.add_function (some fid) f ins outs w dom).functions.length
        = d.functions.length + 1 ∧
    (d.add_function (some fid) f ins outs w dom).functions.take
        d.functions.length = d.functions ∧
    ∃ g, (d.add_function (some fid) f ins outs w dom).functions.getLast?
        = some g ∧ g.fid ≠ fid ∧ g.func = f ∧ g.inputs = ins ∧
        g.outputs = outs ∧ g.weight = w := by
  refine ⟨by simp [Dispatcher.add_function], by simp [Dispatcher.add_function,
    List.take_left], ?_⟩
  refine ⟨⟨uniquify d.fids fid, f, ins, outs, w, dom⟩, ?_, ?_, rfl, rfl, rfl, rfl⟩
  · show (d.functions ++ [_]).getLast? = _
    rw [List.getLast?_concat]
  · show uniquify d.fids fid ≠ fid
    unfold uniquify
    rw [if_pos h]
    exact freshSuffix_ne _ _ _ _

/-- Witness for the amended C1: re-adding the id `dispatch_list` extends a
one-node store to two nodes, the second under a fresh suffixed id. -/
theorem claim_C1_witness :
    "dispatch_list" ∈ (Dispatcher.empty.add_function (some "dispatch_list")
      (fun l => [l.headD (0 : Int) + 1]) ["d"] ["g"] 0 (fun _ => true)).fids ∧
    ((Dispatcher.empty.add_function (some "dispatch_list")
        (fun l => [l.headD (0 : Int) + 1]) ["d"] ["g"] 0
        (fun _ => true)).add_function
          (some "dispatch_list") (fun l => [l.headD 0 - 1]) ["d"] ["h"]
          0 (fun _ => true)).functions.length = 2 := by
  refine ⟨by decide, ?_⟩
  have := claim_C1_duplicate_id_amended
    (Dispatcher.empty.add_function (some "dispatch_list")
      (fun l => [l.headD (0 : Int) + 1]) ["d"] ["g"] 0 (fun _ => true))
    "dispatch_list" (fun l => [l.headD 0 - 1]) ["d"] ["h"] 0 (fun _ => true)
    (by decide)
  exact this.1

/-- Counterexample to claim C2 as stated: in the `test_replicate_function`
graph the two output slots of the `ReplicateFunction` node receive the
results of applying the wrapped function to each input separately —
`c = (4, 2)` and `d = (5, 3)` — which are not equal, so the adapter does
not replicate one common return value into every slot. -/
theorem claim_C2_counterexample :
    (replicateDsp.dispatch [("a", V.i 3), ("b", V.i 4)] none).val "c"
        = some (V.p (V.i 4) (V.i 2)) ∧
    (replicateDsp.dispatch [("a", V.i 3), ("b", V.i 4)] none).val "d"
        = some (V.p (V.i 5) (V.i 3)) ∧
    V.p (V.i 4) (V.i 2) ≠ V.p (V.i 5) (V.i 3) :=
  ⟨rfl, rfl, by decide⟩

/-- Claim C2 (amended): a `ReplicateFunction` adapter over `f` applied once
to `k` inputs yields `k` output-slot values, the `i`-th being `f` applied
to the `i`-th input (so the slots coincide only when those applications
do). -/
theorem claim_C2_replicate_amended {α β : Type} (f : α → β) (xs : List α) :
    (ReplicateFunction f xs).length = xs.length ∧
    ∀ i : Nat, (ReplicateFunction f xs).get? i = (xs.get? i).map f := by
  refine ⟨List.length_map _ _, ?_⟩
  intro i
  simp [ReplicateFunction, List.get?_map]

/-- Claim C3: `SubDispatchFunction` construction raises a `ValueError`
before any call exactly when some requested output is not structurally
reachable from the declared inputs in the embedded graph, and succeeds when
every requested output is reachable.  (Stated against the declarative
predicate `Reachable`; the constructor runs the executable closure, and the
two agree by `mem_reachClosure_iff`.) -/
theorem claim_C3_construction_reachability {α : Type} (sub : Dispatcher α)
    (name : String) (ins outs : List String) :
    ((∃ e, SubDispatchFunction sub name ins outs = .error e) ↔
      ∃ o ∈ outs, ¬ Reachable sub.functions ins o) ∧
    ((∀ o ∈ outs, Reachable sub.functions ins o) →
      SubDispatchFunction sub name ins outs = .ok ⟨sub, name, ins, outs⟩) := by
  have hiff : (outs.all (fun o => o ∈ reachClosure sub.functions ins) = true)
      ↔ ∀ o ∈ outs, Reachable sub.functions ins o := by
    rw [List.all_eq_true]
    constructor
    · intro hall o ho
      have := hall o ho
      rw [decide_eq_true_eq] at this
      exact (mem_reachClosure_iff _ _ _).mp this
    · intro hall o ho
      rw [decide_eq_true_eq]
      exact (mem_reachClosure_iff _ _ _).mpr (hall o ho)
  constructor
  · constructor
    · rintro ⟨e, he⟩
      by_contra hno
      push_neg at hno
      unfold SubDispatchFunction at he
      rw [if_pos (hiff.mpr hno)] at he
      cases he
    · rintro ⟨o, ho, hnr⟩
      unfold SubDispatchFunction
      rw [if_neg (fun hall => hnr (hiff.mp hall o ho))]
      exact ⟨_, rfl⟩
  · intro hall
    unfold SubDispatchFunction
    rw [if_pos (hiff.mpr hall)]

/-- Witness for C3 at the `dsp_2` scenarios of the test suite: requesting
`d` from inputs `a, c` fails at construction (no producer of `d` is
reachable: both nodes also need `b`), while requesting `c, d` from `a, b`
constructs successfully. -/
theorem claim_C3_witness :
    (∃ e, SubDispatchFunction dsp_2 "F" ["a", "c"] ["d"] = .error e) ∧
    SubDispatchFunction dsp_2 "F" ["a", "b"] ["c", "d"]
      = .ok ⟨dsp_2, "F", ["a", "b"], ["c", "d"]⟩ := by
  constructor
  · apply (claim_C3_construction_reachability dsp_2 "F" ["a", "c"] ["d"]).1.mpr
    refine ⟨"d", by decide, ?_⟩
    intro hr
    have hmem := (mem_reachClosure_iff dsp_2.functions ["a", "c"] "d").mpr hr
    revert hmem
    decide
  · apply (claim_C3_construction_reachability dsp_2 "F" ["a", "b"] ["c", "d"]).2
    intro o ho
    apply (mem_reachClosure_iff dsp_2.functions ["a", "b"] o).mp
    fin_cases ho
    · decide
    · decide

/-- Claim C4: a call of a constructed `SubDispatchFunction` raises a
`ValueError` whenever the embedded dispatch leaves some requested output
unresolved on the given argument values (e.g. through a false domain
predicate with no fallback), and returns the resolved value(s) (a bare
value for a single requested output) whenever every requested output is
resolved. -/
theorem claim_C4_call_resolution {α : Type} (s : SDF α) (vals : List α) :
    ((∃ o ∈ s.outs, (dispatchW s.sub (s.ins.zip vals)
        (s.ins.filter (fun i => i ∈ s.outs)) (some s.outs)).val o = none) →
      s.call vals = .error "ValueError: unresolved outputs") ∧
    (∀ vs, lookupAll s.outs (dispatchW s.sub (s.ins.zip vals)
        (s.ins.filter (fun i => i ∈ s.outs)) (some s.outs)).val = some vs →
      s.call vals = .ok (asCallResult vs)) := by
  constructor
  · rintro ⟨o, ho, hnone⟩
    have hn : lookupAll s.outs (dispatchW s.sub (s.ins.zip vals)
        (s.ins.filter (fun i => i ∈ s.outs)) (some s.outs)).val = none :=
      (lookupAll_eq_none_iff _ _).mpr ⟨o, ho, hnone⟩
    simp only [SDF.call, hn]
  · intro vs hvs
    simp only [SDF.call, hvs]

/-- The `fun = SubDispatchFunction(dsp_1, 'F', ['a','b'], ['a'])` adapter of
the test suite. -/
def sdf1 : SDF Int := ⟨dsp_1, "F", ["a", "b"], ["a"]⟩

/-- Witness for C4 at the `dsp_1` scenario: `fun(3, -1)` leaves the
requested (wildcarded) output `a` unresolved — the domain `c * b > 0` of
its only producer is false — and raises; `fun(2, 1)` resolves it and
returns the bare recomputed value 1. -/
theorem claim_C4_witness :
    SubDispatchFunction dsp_1 "F" ["a", "b"] ["a"] = .ok sdf1 ∧
    (∃ o ∈ sdf1.outs, (dispatchW sdf1.sub (sdf1.ins.zip [3, -1])
        (sdf1.ins.filter (fun i => i ∈ sdf1.outs)) (some sdf1.outs)).val o
        = none) ∧
    sdf1.call [3, -1] = .error "ValueError: unresolved outputs" ∧
    sdf1.call [2, 1] = .ok (.one 1) := by
  refine ⟨rfl, ⟨"a", by decide, rfl⟩, ?_, ?_⟩
  · exact (claim_C4_call_resolution sdf1 [3, -1]).1 ⟨"a", by decide, rfl⟩
  · exact (claim_C4_call_resolution sdf1 [2, 1]).2 [1] rfl

/-- When every requested output resolves, the present-keys projection built
by `SubDispatch` carries exactly the resolved values, in requested order. -/
theorem filterMap_of_lookupAll {α : Type} (f : String → Option α) :
    ∀ (outs : List String) (vs : List α), lookupAll outs f = some vs →
      (outs.filterMap (fun o => (f o).map (fun v => (o, v)))).map Prod.snd
        = vs := by
  intro outs
  induction outs with
  | nil =>
    intro vs h
    simp only [lookupAll, Option.some_inj] at h
    subst h
    rfl
  | cons o t ih =>
    intro vs h
    cases ho : f o with
    | none => simp [lookupAll, ho] at h
    | some v =>
      simp only [lookupAll, ho] at h
      cases ht : lookupAll t f with
      | none => simp [ht] at h
      | some vs2 =>
        rw [ht] at h
        simp only [Option.map_some', Option.some_inj] at h
        subst h
        simp only [List.filterMap_cons, ho, Option.map_some', List.map_cons]
        rw [ih vs2 ht]

/-- Counterexample to claim C5 as stated: in the `TestSubDispatcher`
scenario, `SubDispatch(sub_dsp, ['c'], type_return='list')` applied to
`{'a': 3}` returns the bare value 2 (the test asserts `o['h'] == 2`), not
the one-element list `[2]`. -/
theorem claim_C5_counterexample :
    SubDispatch sub_dsp ["c"] .list [("a", (3 : Int))] = .value 2 ∧
    SDResult.value (2 : Int) ≠ .list [2] :=
  ⟨rfl, by decide⟩

/-- Claim C5 (amended): when every requested output resolves, the `list`
adapter returns the ordered list of resolved values in requested-name order
whenever at least two outputs are requested, but with exactly one requested
output it returns the bare resolved value — under `list` just as under
`value`. -/
theorem claim_C5_list_return_amended {α : Type} (sub : Dispatcher α)
    (outputs : List String) (inputs : List (String × α)) (vs : List α)
    (hvs : lookupAll outputs (sub.dispatch inputs (some outputs)).val
      = some vs) :
    (2 ≤ outputs.length → SubDispatch sub outputs .list inputs = .list vs) ∧
    (∀ v, vs = [v] → SubDispatch sub outputs .list inputs = .value v ∧
      SubDispatch sub outputs .value inputs = .value v) := by
  have hpres : (outputs.filterMap (fun o =>
      ((sub.dispatch inputs (some outputs)).val o).map (fun v => (o, v)))).map
      Prod.snd = vs := filterMap_of_lookupAll _ _ _ hvs
  have hlen := (lookupAll_mapM_vals _ _ _ hvs).1
  constructor
  · intro h2
    cases outputs with
    | nil => simp at h2
    | cons o1 t =>
      cases t with
      | nil => simp at h2
      | cons o2 t2 =>
        simp only [SubDispatch, hpres]
  · intro v hv
    subst hv
    have h1 : outputs.length = 1 := by
      rw [← hlen]
      rfl
    cases outputs with
    | nil => simp at h1
    | cons o1 t =>
      cases t with
      | cons o2 t2 => simp at h1
      | nil =>
        constructor
        · simp only [SubDispatch, hpres]
        · simp only [SubDispatch, hpres]

/-- Witness for the amended C5 at the `TestSubDispatcher` scenario:
requesting `a, c` under `list` gives the ordered list `[3, 2]`, requesting
only `c` gives the bare value 2 under both `list` and `value`. -/
theorem claim_C5_witness :
    SubDispatch sub_dsp ["a", "c"] .list [("a", (3 : Int))] = .list [3, 2] ∧
    SubDispatch sub_dsp ["c"] .list [("a", (3 : Int))] = .value 2 ∧
    SubDispatch sub_dsp ["c"] .value [("a", (3 : Int))] = .value 2 := by
  refine ⟨?_, ?_, ?_⟩
  · exact (claim_C5_list_return_amended sub_dsp ["a", "c"] [("a", 3)]
      [3, 2] rfl).1 (by decide)
  · exact ((claim_C5_list_return_amended sub_dsp ["c"] [("a", 3)]
      [2] rfl).2 2 rfl).1
  · exact ((claim_C5_list_return_amended sub_dsp ["c"] [("a", 3)]
      [2] rfl).2 2 rfl).2

/-- The projection kept by `selector` answers lookups exactly like the
original mapping on the listed keys and is empty off them. -/
theorem alookup_filterMap_keys {α : Type} (d : List (String × α)) :
    ∀ (keys : List String) (k : String),
      alookup (keys.filterMap (fun q => (alookup d q).map (fun v => (q, v)))) k
        = if k ∈ keys then alookup d k else none := by
  intro keys
  induction keys with
  | nil => intro k; simp [alookup]
  | cons q t ih =>
    intro k
    have hmemc : ∀ (h : ¬ k = q) (h2 : k ∉ t), k ∉ q :: t := by
      intro h h2 hm
      rcases List.mem_cons.mp hm with he | hm2
      · exact h he
      · exact h2 hm2
    cases hq : alookup d q with
    | none =>
      simp only [List.filterMap_cons, hq, Option.map_none']
      rw [ih]
      by_cases hk : k = q
      · subst hk
        by_cases hkt : k ∈ t
        · rw [if_pos hkt, if_pos (List.mem_cons_self _ _)]
        · rw [if_neg hkt, if_pos (List.mem_cons_self _ _), hq]
      · by_cases hkt : k ∈ t
        · rw [if_pos hkt, if_pos (List.mem_cons_of_mem _ hkt)]
        · rw [if_neg hkt, if_neg (hmemc hk hkt)]
    | some v =>
      simp only [List.filterMap_cons, hq, Option.map_some']
      simp only [alookup]
      by_cases hk : q = k
      · subst hk
        rw [if_pos rfl, if_pos (List.mem_cons_self _ _), hq]
      · rw [if_neg hk, ih]
        by_cases hkt : k ∈ t
        · rw [if_pos hkt, if_pos (List.mem_cons_of_mem _ hkt)]
        · rw [if_neg hkt, if_neg (hmemc (fun he => hk he.symm) hkt)]

/-- Claim C7: `selector` projects the present listed keys; with
`allow_miss` it silently omits absent keys, without it it raises a
`KeyError` exactly when some listed key is absent; when nothing is missing
the two agree. -/
theorem claim_C7_selector {α : Type} (keys : List String)
    (d : List (String × α)) :
    (∃ proj, selector keys d true .dict = .ok (.dict proj) ∧
      ∀ k, alookup proj k = if k ∈ keys then alookup d k else none) ∧
    ((∃ e, selector keys d false .dict = .error e) ↔
      ∃ k ∈ keys, alookup d k = none) ∧
    ((∀ k ∈ keys, (alookup d k).isSome) →
      selector keys d false .dict = selector keys d true .dict) := by
  have hany : (keys.any (fun k => (alookup d k).isNone) = true)
      ↔ ∃ k ∈ keys, alookup d k = none := by
    rw [List.any_eq_true]
    constructor
    · rintro ⟨k, hk, hnone⟩
      exact ⟨k, hk, by simpa [Option.isNone_iff_eq_none] using hnone⟩
    · rintro ⟨k, hk, hnone⟩
      exact ⟨k, hk, by simp [hnone]⟩
  refine ⟨?_, ?_, ?_⟩
  · refine ⟨keys.filterMap (fun q => (alookup d q).map (fun v => (q, v))),
      ?_, alookup_filterMap_keys d keys⟩
    unfold selector
    rw [if_neg (by simp)]
  · constructor
    · rintro ⟨e, he⟩
      unfold selector at he
      by_cases hc : ¬ false = true ∧ keys.any (fun k => (alookup d k).isNone)
      · exact hany.mp hc.2
      · rw [if_neg hc] at he
        cases he
    · intro hmiss
      unfold selector
      rw [if_pos ⟨by simp, hany.mpr hmiss⟩]
      exact ⟨_, rfl⟩
  · intro hall
    unfold selector
    rw [if_neg ?hc1, if_neg (by simp)]
    case hc1 =>
      rintro ⟨_, hc2⟩
      obtain ⟨k, hk, hnone⟩ := hany.mp hc2
      have := hall k hk
      rw [hnone] at this
      cases this

/-- Witness for C7 at the spec's example: `selector(['a','b'], {'a': 1},
allow_miss=True)` keeps `{'a': 1}` while without `allow_miss` it raises. -/
theorem claim_C7_witness :
    ((∃ e, selector ["a", "b"] [("a", (1 : Int))] false .dict = .error e) ↔
      ∃ k ∈ ["a", "b"], alookup [("a", (1 : Int))] k = none) ∧
    (∃ e, selector ["a", "b"] [("a", (1 : Int))] false .dict = .error e) ∧
    selector ["a", "b"] [("a", (1 : Int))] true .dict
      = .ok (.dict [("a", 1)]) :=
  ⟨(claim_C7_selector ["a", "b"] [("a", 1)]).2.1,
   (claim_C7_selector ["a", "b"] [("a", 1)]).2.1.mpr ⟨"b", by decide, rfl⟩,
   rfl⟩

theorem alookup_filter_drop {α : Type} {k : String}
    (p : String × α → Bool) (hp : ∀ b, p (k, b) = false) :
    ∀ (l : List (String × α)), alookup (l.filter p) k = none := by
  intro l
  induction l with
  | nil => rfl
  | cons a rest ih =>
    obtain ⟨a1, a2⟩ := a
    by_cases hpa : p (a1, a2)
    · rw [List.filter_cons_of_pos hpa]
      have hne : a1 ≠ k := by
        intro he
        subst he
        rw [hp a2] at hpa
        cases hpa
      simpa [alookup, hne] using ih
    · rw [List.filter_cons_of_neg hpa]
      exact ih

theorem alookup_filter_keep {α : Type} {k : String}
    (p : String × α → Bool) (hp : ∀ b, p (k, b) = true) :
    ∀ (l : List (String × α)), alookup (l.filter p) k = alookup l k := by
  intro l
  induction l with
  | nil => rfl
  | cons a rest ih =>
    obtain ⟨a1, a2⟩ := a
    by_cases hak : a1 = k
    · subst hak
      rw [List.filter_cons_of_pos (hp a2)]
      simp [alookup]
    · by_cases hpa : p (a1, a2)
      · rw [List.filter_cons_of_pos hpa]
        simpa [alookup, hak] using ih
      · rw [List.filter_cons_of_neg hpa]
        simpa [alookup, hak] using ih

/-- One merge step of `combine_dicts`: the right-hand mapping wins on
conflicts and the left-hand mapping answers the rest. -/
theorem alookup_merge {α : Type} (acc d : List (String × α)) (k : String) :
    alookup ((acc.filter (fun p => (alookup d p.1).isNone)) ++ d) k
      = match alookup d k with
        | some v => some v
        | none => alookup acc k := by
  cases hd : alookup d k with
  | some v =>
    have hdrop : alookup (acc.filter (fun p => (alookup d p.1).isNone)) k
        = none :=
      alookup_filter_drop _ (fun b => by simp [hd]) acc
    rw [alookup_append_of_none _ hdrop, hd]
  | none =>
    have hkeep : alookup (acc.filter (fun p => (alookup d p.1).isNone)) k
        = alookup acc k :=
      alookup_filter_keep _ (fun b => by simp [hd]) acc
    cases ha : alookup acc k with
    | some x => rw [alookup_append_of_some _ (hkeep.trans ha)]
    | none =>
      rw [alookup_append_of_none _ (hkeep.trans ha)]
      exact hd

/-- Folding the merge over a sequence of mappings answers lookups like a
right-to-left first-hit scan. -/
theorem combine_foldl {α : Type} (k : String) :
    ∀ (ds : List (List (String × α))) (acc : List (String × α)),
      alookup (ds.foldl (fun acc d =>
        (acc.filter (fun p => (alookup d p.1).isNone)) ++ d) acc) k
      = ds.foldl (fun o d => match alookup d k with
          | some v => some v
          | none => o) (alookup acc k) := by
  intro ds
  induction ds with
  | nil => intro acc; rfl
  | cons d t ih =>
    intro acc
    rw [List.foldl_cons, List.foldl_cons, ih, alookup_merge]

/-- Claim C8: `combine_dicts` binds every key to the value of the last
(rightmost) argument mapping containing it, and its key set is the union of
the arguments' key sets.  (The model is pure, so no argument mapping is
mutated.) -/
theorem claim_C8_combine_dicts {α : Type} (ds : List (List (String × α)))
    (k : String) :
    alookup (combine_dicts ds) k = lastWins ds k ∧
    ((alookup (combine_dicts ds) k).isSome ↔
      ∃ d ∈ ds, (alookup d k).isSome) := by
  have h1 : alookup (combine_dicts ds) k = lastWins ds k := by
    unfold combine_dicts lastWins
    rw [combine_foldl]
    rfl
  refine ⟨h1, ?_⟩
  rw [h1]
  have haux : ∀ (t : List (List (String × α))) (o : Option α),
      (t.foldl (fun o d => match alookup d k with
        | some v => some v
        | none => o) o).isSome
      ↔ o.isSome ∨ ∃ d ∈ t, (alookup d k).isSome := by
    intro t
    induction t with
    | nil => intro o; simp
    | cons d t2 ih =>
      intro o
      rw [List.foldl_cons, ih]
      cases hd : alookup d k with
      | some v => simp [hd]
      | none => simp [hd]
  unfold lastWins
  rw [haux ds none]
  simp

/-- Claim C10: `calculate_engine_powers_out` cannot return when
`alternator_powers_demand` is left at its default `None` — the body
dereferences it unconditionally — while with a numeric array of matching
shape it returns the computed power array. -/
theorem claim_C10_apd_required (gear_box_powers_in : List Int)
    (on_engine : List Bool) (P0 : Option Int) :
    (∃ e, calculate_engine_powers_out gear_box_powers_in on_engine none P0
      = .error e) ∧
    (on_engine.length = gear_box_powers_in.length →
      ∀ apd : List Int, apd.length = on_engine.length →
        ∃ out, calculate_engine_powers_out gear_box_powers_in on_engine
          (some apd) P0 = .ok out) := by
  constructor
  · unfold calculate_engine_powers_out
    by_cases hlen : on_engine.length ≠ gear_box_powers_in.length
    · rw [if_pos hlen]
      exact ⟨_, rfl⟩
    · rw [if_neg hlen]
      exact ⟨_, rfl⟩
  · intro hlen apd hlen2
    unfold calculate_engine_powers_out
    rw [if_neg (fun h => h hlen)]
    show ∃ out, engine_powers_body gear_box_powers_in on_engine apd P0
      = .ok out
    unfold engine_powers_body
    rw [if_neg (fun h => h hlen2)]
    cases P0 with
    | none => exact ⟨_, rfl⟩
    | some q => exact ⟨_, rfl⟩

/-- Witness for C10: with the arrays of matching shape the call succeeds
(and computes `p[on] = gbp[on] + abs(apd[on])`, clamped below by `P0`);
omitting the alternator demand raises. -/
theorem claim_C10_witness :
    (∃ e, calculate_engine_powers_out [1, 2, 3] [true, false, true] none
      (some 1) = .error e) ∧
    (∃ out, calculate_engine_powers_out [1, 2, 3] [true, false, true]
      (some [-1, 5, 2]) (some 1) = .ok out) ∧
    calculate_engine_powers_out [1, 2, 3] [true, false, true]
      (some [-1, 5, 2]) (some 1) = .ok [2, 1, 5] :=
  ⟨(claim_C10_apd_required [1, 2, 3] [true, false, true] (some 1)).1,
   (claim_C10_apd_required [1, 2, 3] [true, false, true] (some 1)).2 rfl
     [-1, 5, 2] rfl,
   rfl⟩

end CoDsp
